import Mathlib

/-!
Verification of the WarpX particle-to-grid coupling layer:
charge deposition kernels (`Source/Particles/Deposition/ChargeDeposition.H`),
PEC boundary kernels (`Source/BoundaryConditions/WarpX_PEC.H`) and the
sorting fill utilities (`Source/Particles/Sorting/SortingUtils.cpp`),
shallowly embedded over exact arithmetic (`ℚ` for the Cartesian kernels,
`ℝ` for the axisymmetric radius computation which uses a square root).
-/

set_option maxHeartbeats 1000000

namespace WarpXSpec

/-! ## Scatter-add primitives

The deposition kernels accumulate contributions into a grid array with
`amrex::Gpu::Atomic::AddNoRet`.  In exact arithmetic a finished parallel
dispatch of atomic adds is a left fold of pointwise additions over the list
of (cell, value) contributions. -/

/-- Atomic add of `v` into cell `c` of grid `g` (the post-dispatch,
exact-arithmetic meaning of one `Gpu::Atomic::AddNoRet` call). -/
def addAt {ι K : Type} [DecidableEq ι] [AddCommMonoid K]
    (g : ι → K) (c : ι) (v : K) : ι → K :=
  Function.update g c (g c + v)

/-- Accumulate a list of (cell, value) contributions into grid `g`. -/
def scatter {ι K : Type} [DecidableEq ι] [AddCommMonoid K]
    (g : ι → K) (ps : List (ι × K)) : ι → K :=
  ps.foldl (fun h p => addAt h p.1 p.2) g

/-! ## Shape-factor evaluator -/

/-- Modelled from the spec: the Shape-Factor Evaluator
(`Compute_shape_factor` of `Particles/ShapeFactors.H`, whose source is not
included under `src/`; only its call sites in the deposition kernels are).
Given a fractional grid coordinate it returns the index of the leftmost
grid point the particle's support touches together with the `order+1`
B-spline weights: order 0 is the top-hat (1 point), order 1 linear
(2 points), order 2 the quadratic B-spline (3 points with the
half / three-quarter / half split about the nearest point), order 3 the
cubic B-spline (4 points). -/
def compute_shape_factor {K : Type} [LinearOrderedField K] [FloorRing K]
    (order : ℕ) (x : K) : ℤ × List K :=
  match order with
  | 0 => (⌊x + 1/2⌋, [1])
  | 1 =>
      let j : ℤ := ⌊x⌋
      let u : K := x - (j : K)
      (j, [1 - u, u])
  | 2 =>
      let j : ℤ := ⌊x + 1/2⌋
      let u : K := x - (j : K)
      (j - 1, [(1/2) * (1/2 - u)^2, 3/4 - u^2, (1/2) * (1/2 + u)^2])
  | 3 =>
      let j : ℤ := ⌊x⌋
      let u : K := x - (j : K)
      (j - 1, [(1 - u)^3 / 6,
               (3*u^3 - 6*u^2 + 4) / 6,
               (-3*u^3 + 3*u^2 + 3*u + 1) / 6,
               u^3 / 6])
  | _ + 4 => (0, [])

/-! ## Direct deposition kernel, 3D Cartesian branch
(`doChargeDepositionShapeN`, `WARPX_DIM_3D` configuration)

One particle carries a position, a weight `wp[ip]` and an ionization level
`ion_lev[ip]` (only read when `ion_lev` is a non-null pointer, i.e. when
`do_ionization` holds). -/

structure ParticleXYZ where
  xp : ℚ
  yp : ℚ
  zp : ℚ
  wp : ℚ
  ion_lev : ℤ
  deriving DecidableEq

/-- Grid cell of the 3D charge-density array `rho_arr(i,j,k)`. -/
abbrev Cell3D := ℤ × ℤ × ℤ

/-- The list of `Gpu::Atomic::AddNoRet` contributions of one particle in
the 3D branch of `doChargeDepositionShapeN`: `wq = q*wp[ip]*invvol`
(times `ion_lev[ip]` when ionization is on), per-axis fractional
coordinates offset by half a cell on cell-centered axes
(`rho_type[d] == NODE` is `rho_type.d = true`), shape factors per axis,
and the triple stencil loop depositing
`sx[ix]*sy[iy]*sz[iz]*wq` at  `(lo.x+i+ix, lo.y+j+iy, lo.z+k+iz)`. -/
def depositContribs3D (depos_order : ℕ) (do_ionization : Bool)
    (dx : ℚ × ℚ × ℚ) (xyzmin : ℚ × ℚ × ℚ) (lo : Cell3D) (q : ℚ)
    (rho_type : Bool × Bool × Bool) (p : ParticleXYZ) :
    List (Cell3D × ℚ) :=
  let dxi := 1 / dx.1
  let dyi := 1 / dx.2.1
  let dzi := 1 / dx.2.2
  let invvol := dxi * dyi * dzi
  let wq0 := q * p.wp * invvol
  let wq := if do_ionization then wq0 * (p.ion_lev : ℚ) else wq0
  let x := (p.xp - xyzmin.1) * dxi
  let y := (p.yp - xyzmin.2.1) * dyi
  let z := (p.zp - xyzmin.2.2) * dzi
  let isx := compute_shape_factor depos_order (if rho_type.1 then x else x - 1/2)
  let jsy := compute_shape_factor depos_order (if rho_type.2.1 then y else y - 1/2)
  let ksz := compute_shape_factor depos_order (if rho_type.2.2 then z else z - 1/2)
  ((List.range (depos_order + 1)).map (fun (iz : ℕ) =>
    ((List.range (depos_order + 1)).map (fun (iy : ℕ) =>
      (List.range (depos_order + 1)).map (fun (ix : ℕ) =>
        ((lo.1 + isx.1 + (ix : ℤ), lo.2.1 + jsy.1 + (iy : ℤ),
          lo.2.2 + ksz.1 + (iz : ℤ)),
         isx.2.getD ix 0 * jsy.2.getD iy 0 * ksz.2.getD iz 0 * wq)))).flatten)).flatten

/-- A deposition pass over a particle list: the exact-arithmetic content of
the `amrex::ParallelFor(np_to_deposit, ...)` loop of the direct kernel: a
fold of per-particle atomic scatters into the shared array. -/
def depositList {P ι K : Type} [DecidableEq ι] [AddCommMonoid K]
    (cf : P → List (ι × K)) (g : ι → K) (ps : List P) : ι → K :=
  ps.foldl (fun h p => scatter h (cf p)) g

/-- Tiled deposition: each tile's particles are accumulated into a private
zero-initialized buffer which is then merged into the shared array with one
add per buffer cell (`addLocalToGlobal`), tile after tile.  This is the
exact-arithmetic content of the shared-memory path of
`doChargeDepositionSharedShapeN`. -/
def depositTiles {P ι K : Type} [DecidableEq ι] [AddCommMonoid K]
    (cf : P → List (ι × K)) (g : ι → K) (tiles : List (List P)) : ι → K :=
  tiles.foldl
    (fun h tile => fun c => h c + depositList cf (fun _ => 0) tile c) g

/-- Kernel `doChargeDepositionShapeN`, 3D branch, over a particle batch. -/
def doChargeDepositionShapeN3D (depos_order : ℕ) (particles : List ParticleXYZ)
    (do_ionization : Bool) (rho : Cell3D → ℚ) (dx : ℚ × ℚ × ℚ)
    (xyzmin : ℚ × ℚ × ℚ) (lo : Cell3D) (q : ℚ)
    (rho_type : Bool × Bool × Bool) : Cell3D → ℚ :=
  depositList (depositContribs3D depos_order do_ionization dx xyzmin lo q rho_type)
    rho particles

/-- Kernel `doChargeDepositionSharedShapeN`, 3D branch: particles arrive pre-binned
into tiles (via `a_bins`'s permutation and offsets); each tile deposits into
its private buffer and the buffers are merged into `rho`. -/
def doChargeDepositionSharedShapeN3D (depos_order : ℕ)
    (tiles : List (List ParticleXYZ)) (do_ionization : Bool)
    (rho : Cell3D → ℚ) (dx : ℚ × ℚ × ℚ) (xyzmin : ℚ × ℚ × ℚ) (lo : Cell3D)
    (q : ℚ) (rho_type : Bool × Bool × Bool) : Cell3D → ℚ :=
  depositTiles (depositContribs3D depos_order do_ionization dx xyzmin lo q rho_type)
    rho tiles

/-! ## Direct deposition kernel, RZ (axisymmetric) branch
(`doChargeDepositionShapeN`, `WARPX_DIM_RZ` configuration)

The grid carries a mode axis: component 0 is the monopole, components
`2m-1` / `2m` the cosine/sine parts of azimuthal mode `m`.  `Complex` of
`WarpX_Complex.H` is a plain real pair with the usual product. -/

/-- Grid cell of the RZ charge-density array `rho_arr(i,k,0,comp)`. -/
abbrev CellRZ := ℤ × ℤ × ℕ

/-- Product of the `Complex` pairs of `WarpX_Complex.H`. -/
def cmul {K : Type} [CommRing K] (u v : K × K) : K × K :=
  (u.1 * v.1 - u.2 * v.2, u.1 * v.2 + u.2 * v.1)

/-- Power `(cosθ + i sinθ)^m` by repeated `cmul`. -/
def cpowC {K : Type} [CommRing K] (u : K × K) : ℕ → K × K
  | 0 => (1, 0)
  | m + 1 => cmul (cpowC u m) u

/-- The azimuthal-mode loop at one stencil cell
(`for imode=1; imode < n_rz_azimuthal_modes; imode++`): deposits
`2*v*xy.real()` into component `2*imode-1` and `2*v*xy.imag()` into
component `2*imode`, multiplying `xy` by `xy0` each round so that `xy`
holds `e^{i m θ}`.  `fuel` is the number of remaining rounds. -/
def modeLoopAux {K : Type} [CommRing K] (ci ck : ℤ) (v : K) (xy0 : K × K) :
    ℕ → K × K → ℕ → List (CellRZ × K)
  | 0, _, _ => []
  | fuel + 1, xy, imode =>
      ((ci, ck, 2 * imode - 1), 2 * v * xy.1) ::
      ((ci, ck, 2 * imode), 2 * v * xy.2) ::
      modeLoopAux ci ck v xy0 fuel (cmul xy xy0) (imode + 1)

/-- All contributions of one particle at one stencil cell `(ci, ck)`:
the monopole deposit `sx[ix]*sz[iz]*wq` into component 0 followed by the
azimuthal-mode loop (`n_modes - 1` rounds starting at `imode = 1` with
`xy = xy0`). -/
def perCellContribsRZ {K : Type} [CommRing K] (ci ck : ℤ) (s wq : K)
    (xy0 : K × K) (n_modes : ℕ) : List (CellRZ × K) :=
  ((ci, ck, 0), s * wq) :: modeLoopAux ci ck (s * wq) xy0 (n_modes - 1) xy0 1

/-- The full contribution list of one particle in the RZ branch: the double
stencil loop over `iz`, `ix` of the per-cell contributions. -/
def rzContribs {K : Type} [CommRing K] (depos_order : ℕ) (lo : ℤ × ℤ)
    (i k : ℤ) (sx sz : List K) (wq : K) (xy0 : K × K) (n_modes : ℕ) :
    List (CellRZ × K) :=
  ((List.range (depos_order + 1)).map (fun (iz : ℕ) =>
    ((List.range (depos_order + 1)).map (fun (ix : ℕ) =>
      perCellContribsRZ (lo.1 + i + (ix : ℤ)) (lo.2 + k + (iz : ℤ))
        (sx.getD ix 0 * sz.getD iz 0) wq xy0 n_modes)).flatten)).flatten

/-- Contributions of one particle in the RZ branch given the already
decomposed radius and direction `(rp, costheta, sintheta)`:
`wq = q*wp*invvol` (times the ionization level when ionization is on),
`x = (rp - xmin)*dxi`, shape factors per axis with the half-cell offset on
cell-centered axes, then the stencil/mode loops. -/
def depositContribsRZ_at {K : Type} [LinearOrderedField K] [FloorRing K]
    (depos_order : ℕ) (do_ionization : Bool) (dx : K × K) (xmin zmin : K)
    (lo : ℤ × ℤ) (q : K) (rho_type : Bool × Bool) (n_modes : ℕ)
    (rp costheta sintheta zp wp : K) (ion_lev : ℤ) : List (CellRZ × K) :=
  let dxi := 1 / dx.1
  let dzi := 1 / dx.2
  let invvol := dxi * dzi
  let wq0 := q * wp * invvol
  let wq := if do_ionization then wq0 * (ion_lev : K) else wq0
  let xy0 : K × K := (costheta, sintheta)
  let x := (rp - xmin) * dxi
  let z := (zp - zmin) * dzi
  let isx := compute_shape_factor depos_order (if rho_type.1 then x else x - 1/2)
  let ksz := compute_shape_factor depos_order (if rho_type.2 then z else z - 1/2)
  rzContribs depos_order lo isx.1 ksz.1 isx.2 ksz.2 wq xy0 n_modes

/-- One particle's deposit in the RZ branch, scattered onto `rho`. -/
def doChargeDepositionShapeNRZ_at {K : Type} [LinearOrderedField K]
    [FloorRing K] (depos_order : ℕ) (rho : CellRZ → K) (do_ionization : Bool)
    (dx : K × K) (xmin zmin : K) (lo : ℤ × ℤ) (q : K)
    (rho_type : Bool × Bool) (n_modes : ℕ)
    (rp costheta sintheta zp wp : K) (ion_lev : ℤ) : CellRZ → K :=
  scatter rho (depositContribsRZ_at depos_order do_ionization dx xmin zmin lo
    q rho_type n_modes rp costheta sintheta zp wp ion_lev)

/-- Particle of the RZ branch: Cartesian `(x, y)` position (decomposed into
radius and angle by the kernel), `z`, weight, ionization level. -/
structure ParticleRZ where
  xp : ℝ
  yp : ℝ
  zp : ℝ
  wp : ℝ
  ion_lev : ℤ

/-- Value `costheta` as computed by both deposition kernels:
`xp/rp` when `rp > 0`, else `1`. -/
noncomputable def rz_costheta (xp yp : ℝ) : ℝ :=
  if Real.sqrt (xp * xp + yp * yp) > 0 then xp / Real.sqrt (xp * xp + yp * yp) else 1

/-- Value `sintheta` as computed by both deposition kernels:
`yp/rp` when `rp > 0`, else `0`. -/
noncomputable def rz_sintheta (xp yp : ℝ) : ℝ :=
  if Real.sqrt (xp * xp + yp * yp) > 0 then yp / Real.sqrt (xp * xp + yp * yp) else 0

/-- Contributions of one particle in the RZ branch from its Cartesian
position: `rp = sqrt(xp²+yp²)` and the guarded angle decomposition. -/
noncomputable def depositContribsRZ (depos_order : ℕ) (do_ionization : Bool)
    (dx : ℝ × ℝ) (xmin zmin : ℝ) (lo : ℤ × ℤ) (q : ℝ)
    (rho_type : Bool × Bool) (n_modes : ℕ) (p : ParticleRZ) :
    List (CellRZ × ℝ) :=
  depositContribsRZ_at depos_order do_ionization dx xmin zmin lo q rho_type
    n_modes (Real.sqrt (p.xp * p.xp + p.yp * p.yp))
    (rz_costheta p.xp p.yp) (rz_sintheta p.xp p.yp) p.zp p.wp p.ion_lev

/-- Kernel `doChargeDepositionShapeN`, RZ branch, over a particle batch. -/
noncomputable def doChargeDepositionShapeNRZ (depos_order : ℕ)
    (particles : List ParticleRZ) (do_ionization : Bool) (rho : CellRZ → ℝ)
    (dx : ℝ × ℝ) (xmin zmin : ℝ) (lo : ℤ × ℤ) (q : ℝ)
    (rho_type : Bool × Bool) (n_modes : ℕ) : CellRZ → ℝ :=
  depositList (depositContribsRZ depos_order do_ionization dx xmin zmin lo q
    rho_type n_modes) rho particles

/-- Kernel `doChargeDepositionSharedShapeN`, RZ branch: the per-particle body is
the same as the direct kernel's; tiles deposit into private zero buffers
which are merged into `rho`. -/
noncomputable def doChargeDepositionSharedShapeNRZ (depos_order : ℕ)
    (tiles : List (List ParticleRZ)) (do_ionization : Bool)
    (rho : CellRZ → ℝ) (dx : ℝ × ℝ) (xmin zmin : ℝ) (lo : ℤ × ℤ) (q : ℝ)
    (rho_type : Bool × Bool) (n_modes : ℕ) : CellRZ → ℝ :=
  depositTiles (depositContribsRZ depos_order do_ionization dx xmin zmin lo q
    rho_type n_modes) rho tiles

/-! ## PEC boundary kernels (`WarpX_PEC.H`, 3D configuration)

The kernels loop over every dimension and side; the 3D (non-macro) branch
classifies a component as tangential to a boundary when `icomp ≠ idim`
(`E`) and normal when `icomp = idim` (`B`).  The boundary-type lookups
`is_boundary_PEC(fbndry_lo/hi, idim)` are embedded as boolean tables. -/

/-- Index vector of a 3D cell (`amrex::IntVect`). -/
abbrev IntVec := Fin 3 → ℤ

/-- A field array indexed by cell and MultiFab component
(`amrex::Array4` with component index `n`). -/
abbrev Field3 := IntVec × ℕ → ℚ

/-- Box `amrex::Box`: lower and upper index corners. -/
structure AmrexBox where
  smallEnd : IntVec
  bigEnd : IntVec

/-- Membership test `Box::contains`: componentwise, guard cells included. -/
def AmrexBox.containsIv (b : AmrexBox) (iv : IntVec) : Bool :=
  decide (∀ d : Fin 3, b.smallEnd d ≤ iv d ∧ iv d ≤ b.bigEnd d)

/-- The `(idim, iside)` iteration order of the PEC kernels' nested loops
(`for idim in 0..2, for iside in 0..1`). -/
def pecPairs : List (Fin 3 × Fin 2) :=
  [(0, 0), (0, 1), (1, 0), (1, 1), (2, 0), (2, 1)]

/-- Function `get_cell_count_to_boundary`: number of grid points the index is past
the domain boundary (`iside = 0` low, `iside = 1` high). -/
def get_cell_count_to_boundary (dom_lo dom_hi ijk_vec is_nodal : IntVec)
    (idim : Fin 3) (iside : Fin 2) : ℤ :=
  if iside = 0 then dom_lo idim - ijk_vec idim
  else ijk_vec idim - (dom_hi idim + is_nodal idim)

/-- Lookup `is_boundary_PEC` applied to the boundary table of the side. -/
def isPECBoundary (fbndry_lo fbndry_hi : Fin 3 → Bool)
    (p : Fin 3 × Fin 2) : Bool :=
  if p.2 = 0 then fbndry_lo p.1 else fbndry_hi p.1

/-- Mirror location across the PEC boundary at guard depth `ig`:
`dom_lo + ig - (1 - is_nodal)` on the low side, `dom_hi + 1 - ig` on the
high side. -/
def pecMirrorIndex (dom_lo dom_hi is_nodal : IntVec) (idim : Fin 3)
    (iside : Fin 2) (ig : ℤ) : ℤ :=
  if iside = 0 then dom_lo idim + ig - (1 - is_nodal idim)
  else dom_hi idim + 1 - ig

/-- Loop state of `SetEfieldOnPEC` / `SetBfieldOnPEC`. -/
structure PECMirrorState where
  ijk_mirror : IntVec
  OnPECBoundary : Bool
  GuardCell : Bool
  sign : ℚ

/-- One `(idim, iside)` round of the field mirror loop.  The classifier
`flip` selects both the on-boundary zeroing and the sign inversion: it is
`icomp ≠ idim` (tangential) for the electric field and `icomp = idim`
(normal) for the magnetic field, which is exactly how the two otherwise
identical loop bodies of `SetEfieldOnPEC` and `SetBfieldOnPEC` differ in
the 3D branch. -/
def pecMirrorStep (flip : Fin 3 → Bool)
    (dom_lo dom_hi ijk_vec is_nodal : IntVec)
    (fbndry_lo fbndry_hi : Fin 3 → Bool)
    (s : PECMirrorState) (p : Fin 3 × Fin 2) : PECMirrorState :=
  if isPECBoundary fbndry_lo fbndry_hi p then
    if get_cell_count_to_boundary dom_lo dom_hi ijk_vec is_nodal p.1 p.2 = 0 then
      if flip p.1 ∧ is_nodal p.1 = 1 then { s with OnPECBoundary := true }
      else s
    else if 0 < get_cell_count_to_boundary dom_lo dom_hi ijk_vec is_nodal p.1 p.2 then
      { ijk_mirror := Function.update s.ijk_mirror p.1
          (pecMirrorIndex dom_lo dom_hi is_nodal p.1 p.2
            (get_cell_count_to_boundary dom_lo dom_hi ijk_vec is_nodal p.1 p.2)),
        OnPECBoundary := s.OnPECBoundary,
        GuardCell := true,
        sign := if flip p.1 then -s.sign else s.sign }
    else s
  else s

/-- The mirror pass at one cell: run the `(idim, iside)` loop from the
initial state (`ijk_mirror = ijk_vec`, flags clear, `sign = 1`), then
write `0` on a PEC boundary, or `sign * field(ijk_mirror)` in a guard
cell, or leave the cell untouched. -/
def pecMirrorPass (flip : Fin 3 → Bool)
    (dom_lo dom_hi ijk_vec : IntVec) (n : ℕ) (F : Field3)
    (is_nodal : IntVec) (fbndry_lo fbndry_hi : Fin 3 → Bool) : Field3 :=
  let s := pecPairs.foldl
    (pecMirrorStep flip dom_lo dom_hi ijk_vec is_nodal fbndry_lo fbndry_hi)
    ⟨ijk_vec, false, false, 1⟩
  if s.OnPECBoundary then Function.update F (ijk_vec, n) 0
  else if s.GuardCell then
    Function.update F (ijk_vec, n) (s.sign * F (s.ijk_mirror, n))
  else F

/-- Tangential classification for the electric field in 3D. -/
def Etang3D (icomp : ℕ) (idim : Fin 3) : Bool := decide (icomp ≠ (idim : ℕ))

/-- Normal classification for the magnetic field in 3D. -/
def Bnorm3D (icomp : ℕ) (idim : Fin 3) : Bool := decide (icomp = (idim : ℕ))

/-- Kernel `SetEfieldOnPEC`, 3D branch. -/
def SetEfieldOnPEC (icomp : ℕ) (dom_lo dom_hi ijk_vec : IntVec) (n : ℕ)
    (Efield : Field3) (is_nodal : IntVec)
    (fbndry_lo fbndry_hi : Fin 3 → Bool) : Field3 :=
  pecMirrorPass (Etang3D icomp) dom_lo dom_hi ijk_vec n Efield is_nodal
    fbndry_lo fbndry_hi

/-- Kernel `SetBfieldOnPEC`, 3D branch. -/
def SetBfieldOnPEC (icomp : ℕ) (dom_lo dom_hi ijk_vec : IntVec) (n : ℕ)
    (Bfield : Field3) (is_nodal : IntVec)
    (fbndry_lo fbndry_hi : Fin 3 → Bool) : Field3 :=
  pecMirrorPass (Bnorm3D icomp) dom_lo dom_hi ijk_vec n Bfield is_nodal
    fbndry_lo fbndry_hi

/-- The mirror guard cell of `ijk_vec` for an `(idim, iside)` pair:
`iv_mirror[idim] = mirrorfac[idim][iside] - ijk_vec[idim]`. -/
def pecMirrorCell (ijk_vec : IntVec) (mirrorfac : Fin 3 → Fin 2 → ℤ)
    (p : Fin 3 × Fin 2) : IntVec :=
  Function.update ijk_vec p.1 (mirrorfac p.1 p.2 - ijk_vec p.1)

/-- Step 1 of `SetRhoOrJfieldFromPEC` for one `(idim, iside)` pair: zero
the cell when it is its own mirror (on the PEC boundary), otherwise fold
the guard cell's deposit into the cell when the mirror exists in the fab
box. -/
def rhoPECstep1 (n : ℕ) (ijk_vec : IntVec) (mirrorfac : Fin 3 → Fin 2 → ℤ)
    (psign : Fin 3 → Fin 2 → ℚ) (is_pec : Fin 3 → Fin 2 → Bool)
    (fabbox : AmrexBox) (f : Field3) (p : Fin 3 × Fin 2) : Field3 :=
  if is_pec p.1 p.2 then
    let iv_mirror := pecMirrorCell ijk_vec mirrorfac p
    if ijk_vec = iv_mirror then Function.update f (ijk_vec, n) 0
    else if fabbox.containsIv iv_mirror then
      Function.update f (ijk_vec, n)
        (f (ijk_vec, n) + psign p.1 p.2 * f (iv_mirror, n))
    else f
  else f

/-- Step 2 of `SetRhoOrJfieldFromPEC` for one `(idim, iside)` pair:
overwrite the guard cell with the (sign-adjusted) image of the cell's
value when the mirror exists in the fab box. -/
def rhoPECstep2 (n : ℕ) (ijk_vec : IntVec) (mirrorfac : Fin 3 → Fin 2 → ℤ)
    (is_pec : Fin 3 → Fin 2 → Bool) (tangent_to_bndy : Fin 3 → Bool)
    (fabbox : AmrexBox) (f : Field3) (p : Fin 3 × Fin 2) : Field3 :=
  if is_pec p.1 p.2 then
    let iv_mirror := pecMirrorCell ijk_vec mirrorfac p
    if ijk_vec ≠ iv_mirror ∧ fabbox.containsIv iv_mirror then
      Function.update f (iv_mirror, n)
        (if tangent_to_bndy p.1 then -(f (ijk_vec, n)) else f (ijk_vec, n))
    else f
  else f

/-- Kernel `SetRhoOrJfieldFromPEC`: all interior-cell updates of step 1 run over
every `(idim, iside)` before any guard-cell overwrite of step 2. -/
def SetRhoOrJfieldFromPEC (n : ℕ) (ijk_vec : IntVec) (field : Field3)
    (mirrorfac : Fin 3 → Fin 2 → ℤ) (psign : Fin 3 → Fin 2 → ℚ)
    (is_pec : Fin 3 → Fin 2 → Bool) (tangent_to_bndy : Fin 3 → Bool)
    (fabbox : AmrexBox) : Field3 :=
  pecPairs.foldl (rhoPECstep2 n ijk_vec mirrorfac is_pec tangent_to_bndy fabbox)
    (pecPairs.foldl (rhoPECstep1 n ijk_vec mirrorfac psign is_pec fabbox) field)

/-- One `(idim, iside)` round of `SetNeumannOnPEC`: a cell equal to its
own mirror copies the value one step inward; otherwise the mirror guard
cell is overwritten with the cell's value, with no sign flip; either
update is skipped when the needed index is outside the fab box. -/
def neumannPECstep (n : ℕ) (ijk_vec : IntVec)
    (mirrorfac : Fin 3 → Fin 2 → ℤ) (is_pec : Fin 3 → Fin 2 → Bool)
    (fabbox : AmrexBox) (f : Field3) (p : Fin 3 × Fin 2) : Field3 :=
  if is_pec p.1 p.2 then
    let iv_mirror := pecMirrorCell ijk_vec mirrorfac p
    if ijk_vec = iv_mirror then
      let iv_shift := Function.update iv_mirror p.1
        (iv_mirror p.1 + (if p.2 = 0 then 1 else -1))
      if fabbox.containsIv iv_shift then
        Function.update f (ijk_vec, n) (f (iv_shift, n))
      else f
    else if fabbox.containsIv iv_mirror then
      Function.update f (iv_mirror, n) (f (ijk_vec, n))
    else f
  else f

/-- Kernel `SetNeumannOnPEC`. -/
def SetNeumannOnPEC (n : ℕ) (ijk_vec : IntVec) (field : Field3)
    (mirrorfac : Fin 3 → Fin 2 → ℤ) (is_pec : Fin 3 → Fin 2 → Bool)
    (fabbox : AmrexBox) : Field3 :=
  pecPairs.foldl (neumannPECstep n ijk_vec mirrorfac is_pec fabbox) field

/-- The condition under which an `(idim, iside)` round raises the
`OnPECBoundary` flag. -/
def onPECBoundaryCond (flip : Fin 3 → Bool)
    (dom_lo dom_hi ijk_vec is_nodal : IntVec)
    (fbndry_lo fbndry_hi : Fin 3 → Bool) (p : Fin 3 × Fin 2) : Bool :=
  isPECBoundary fbndry_lo fbndry_hi p
    && decide (get_cell_count_to_boundary dom_lo dom_hi ijk_vec is_nodal
        p.1 p.2 = 0)
    && flip p.1 && decide (is_nodal p.1 = 1)

/-! ## Sorting fill utilities (`SortingUtils.cpp`) -/

/-- Function `fillWithConsecutiveIntegers`: fills `v` with `0, 1, ..., v.size()-1`
(`AMREX_FOR_1D(N, i, {data[i] = i;})` on GPU, `std::iota` on CPU). -/
def fillWithConsecutiveIntegers (v : List ℤ) : List ℤ :=
  (List.range v.length).map (fun i => (i : ℤ))

/-- Function `fillWithConsecutiveReal`, GPU branch, as written: `data` is a copy of
the scalar `begin` (`auto data = begin;`), and the kernel body
`{data+i*increment;}` computes `begin + i*increment` and discards the
result, so the loop carries `v` through unchanged.  (The CPU branch
`std::iota(begin, N, 0L)` passes a scalar and a length where iterators are
expected and does not even type-check.) -/
def fillWithConsecutiveReal (v : List ℚ) (beginv increment : ℚ)
    (N : ℕ) : List ℚ :=
  (List.range N).foldl (fun w (i : ℕ) =>
    let _discarded := beginv + (i : ℚ) * increment
    w) v

/-- Modelled from the spec: the evident intent of
`fillWithConsecutiveReal` — the real-valued analogue of
`fillWithConsecutiveIntegers` per the claim — stores
`begin + i*increment` into the `i`-th element of the filled range for
`0 ≤ i < N` and leaves the rest of `v` unchanged. -/
def fillWithConsecutiveRealIntent (v : List ℚ) (beginv increment : ℚ)
    (N : ℕ) : List ℚ :=
  ((List.range N).map (fun i => beginv + (i : ℚ) * increment)) ++ v.drop N

theorem addAt_apply {ι K : Type} [DecidableEq ι] [AddCommMonoid K]
    (g : ι → K) (c : ι) (v : K) (c' : ι) :
    addAt g c v c' = if c' = c then g c' + v else g c' := by
  by_cases h : c' = c
  · subst h; simp [addAt]
  · simp [addAt, Function.update_noteq h, h]

theorem scatter_nil {ι K : Type} [DecidableEq ι] [AddCommMonoid K]
    (g : ι → K) : scatter g [] = g := rfl

theorem scatter_cons {ι K : Type} [DecidableEq ι] [AddCommMonoid K]
    (g : ι → K) (p : ι × K) (ps : List (ι × K)) :
    scatter g (p :: ps) = scatter (addAt g p.1 p.2) ps := rfl

/-- Value of a scatter at a single cell: the initial value plus the sum of
the contributions targeted at that cell. -/
theorem scatter_apply {ι K : Type} [DecidableEq ι] [AddCommMonoid K]
    (ps : List (ι × K)) (g : ι → K) (c : ι) :
    scatter g ps c
      = g c + ((ps.filter (fun p => decide (p.1 = c))).map Prod.snd).sum := by
  induction ps generalizing g with
  | nil => simp [scatter]
  | cons p ps ih =>
      rw [scatter_cons, ih]
      by_cases h : p.1 = c
      · subst h
        simp [addAt_apply, add_assoc]
      · have h2 : ¬ (c = p.1) := fun hc => h hc.symm
        simp [addAt_apply, h, h2]

/-- A scatter splits off its initial grid additively. -/
theorem scatter_eq_add_zero {ι K : Type} [DecidableEq ι] [AddCommMonoid K]
    (ps : List (ι × K)) (g : ι → K) (c : ι) :
    scatter g ps c = g c + scatter (fun _ => 0) ps c := by
  rw [scatter_apply, scatter_apply]
  simp

/-- Adding one contribution raises the total over any cell set containing
its target by exactly the contributed value. -/
theorem sum_addAt {ι K : Type} [DecidableEq ι] [AddCommMonoid K]
    (S : Finset ι) (g : ι → K) (c : ι) (v : K) (hc : c ∈ S) :
    ∑ x ∈ S, addAt g c v x = (∑ x ∈ S, g x) + v := by
  unfold addAt
  rw [Finset.sum_update_of_mem hc, ← Finset.add_sum_erase S g hc,
    Finset.erase_eq]
  rw [add_assoc, add_comm v, ← add_assoc]

/-- Total grid content after a scatter: the initial total plus the sum of
all contributed values, whenever every target cell lies in `S`. -/
theorem sum_scatter {ι K : Type} [DecidableEq ι] [AddCommMonoid K]
    (ps : List (ι × K)) (S : Finset ι) (g : ι → K)
    (h : ∀ p ∈ ps, p.1 ∈ S) :
    ∑ x ∈ S, scatter g ps x = (∑ x ∈ S, g x) + (ps.map Prod.snd).sum := by
  induction ps generalizing g with
  | nil => simp [scatter]
  | cons p ps ih =>
      rw [scatter_cons, ih _ (fun q hq => h q (List.mem_cons_of_mem _ hq)),
        sum_addAt S g p.1 p.2 (h p (List.mem_cons_self _ _))]
      simp only [List.map_cons, List.sum_cons]
      abel

/-- Scatters of permuted contribution lists agree everywhere. -/
theorem scatter_perm {ι K : Type} [DecidableEq ι] [AddCommMonoid K]
    {ps qs : List (ι × K)} (h : ps.Perm qs) (g : ι → K) (c : ι) :
    scatter g ps c = scatter g qs c := by
  rw [scatter_apply, scatter_apply]
  exact congrArg (g c + ·) (List.Perm.sum_eq (List.Perm.map _ (List.Perm.filter _ h)))

/-- The weight list has `order+1` entries for every supported order. -/
theorem compute_shape_factor_length {K : Type} [LinearOrderedField K]
    [FloorRing K] (order : ℕ) (h : order ≤ 3) (x : K) :
    (compute_shape_factor order x).2.length = order + 1 := by
  interval_cases order <;> simp [compute_shape_factor]

/-- Partition of unity: the weights of every supported order sum to 1 when
read off with the kernels' loop `for i in 0..order`, at every fractional
position. -/
theorem compute_shape_factor_sum {K : Type} [LinearOrderedField K]
    [FloorRing K] (order : ℕ) (h : order ≤ 3) (x : K) :
    ((List.range (order + 1)).map
      (fun i => (compute_shape_factor order x).2.getD i 0)).sum = 1 := by
  interval_cases order <;>
    simp [compute_shape_factor, List.range_succ] <;> ring

/-- Triple tensor-product sum: summing `a ix * b iy * c iz * w` over the
whole stencil factors into the product of the per-axis weight sums. -/
theorem triple_stencil_sum (n : ℕ) (a b c : ℕ → ℚ) (w : ℚ) :
    ((List.range n).map (fun iz =>
      ((List.range n).map (fun iy =>
        ((List.range n).map (fun ix => a ix * b iy * c iz * w)).sum)).sum)).sum
    = ((List.range n).map a).sum * ((List.range n).map b).sum
        * ((List.range n).map c).sum * w := by
  simp only [mul_assoc, List.sum_map_mul_right, List.sum_map_mul_left]

/-- The values deposited by one particle (ionization off) sum to
`wq = q * wp * invvol`, for every supported order, staggering and
position. -/
theorem depositContribs3D_snd_sum (depos_order : ℕ) (h : depos_order ≤ 3)
    (dx : ℚ × ℚ × ℚ) (xyzmin : ℚ × ℚ × ℚ) (lo : Cell3D) (q : ℚ)
    (rho_type : Bool × Bool × Bool) (p : ParticleXYZ) :
    ((depositContribs3D depos_order false dx xyzmin lo q rho_type p).map
        Prod.snd).sum
      = q * p.wp * (1 / dx.1 * (1 / dx.2.1) * (1 / dx.2.2)) := by
  unfold depositContribs3D
  simp only [Bool.false_eq_true, if_false, List.map_flatten, List.map_map,
    List.sum_flatten, Function.comp_def]
  rw [triple_stencil_sum]
  rw [compute_shape_factor_sum _ h, compute_shape_factor_sum _ h,
    compute_shape_factor_sum _ h]
  ring

/-- Claim C1: charge conservation of the direct deposition kernel.  For
every shape order in `{0,1,2,3}`, every per-axis staggering, and every
particle position, depositing a single particle of weight `w` and charge
`q` (no ionization array) alone onto an all-zero grid via
`doChargeDepositionShapeN` (3D branch) yields a grid whose total over any
cell set covering the stencil, multiplied by the cell volume, is exactly
`q*w`: the per-axis shape weights sum to 1, so the stencil contributions
sum to `wq = q*w/cell_volume`. -/
theorem charge_conservation_direct
    (depos_order : ℕ) (h_order : depos_order ≤ 3)
    (p : ParticleXYZ) (dx : ℚ × ℚ × ℚ) (xyzmin : ℚ × ℚ × ℚ) (lo : Cell3D)
    (q : ℚ) (rho_type : Bool × Bool × Bool)
    (hdx1 : dx.1 ≠ 0) (hdx2 : dx.2.1 ≠ 0) (hdx3 : dx.2.2 ≠ 0)
    (S : Finset Cell3D)
    (hS : ∀ e ∈ depositContribs3D depos_order false dx xyzmin lo q rho_type p,
      e.1 ∈ S) :
    (∑ c ∈ S, doChargeDepositionShapeN3D depos_order [p] false (fun _ => 0)
        dx xyzmin lo q rho_type c) * (dx.1 * dx.2.1 * dx.2.2)
      = q * p.wp := by
  unfold doChargeDepositionShapeN3D depositList
  simp only [List.foldl_cons, List.foldl_nil]
  rw [sum_scatter _ S _ hS, depositContribs3D_snd_sum depos_order h_order]
  simp only [Finset.sum_const_zero, zero_add]
  field_simp

/-- Witness for C1: order-1 deposit of a unit-weight, unit-charge particle
at `x = 3.25` cell units on a node-staggered unit grid; the covered stencil
is `{3,4} × {0,1} × {0,1}` and the total recovers `q*w = 1`. -/
theorem charge_conservation_direct_witness :
    (∑ c ∈ ({3, 4} : Finset ℤ) ×ˢ (({0, 1} : Finset ℤ) ×ˢ ({0, 1} : Finset ℤ)),
        doChargeDepositionShapeN3D 1 [⟨13/4, 0, 0, 1, 1⟩] false (fun _ => 0)
          (1, 1, 1) (0, 0, 0) (0, 0, 0) 1 (true, true, true) c)
      * ((1 : ℚ) * 1 * 1) = 1 * 1 :=
  charge_conservation_direct 1 (by decide) ⟨13/4, 0, 0, 1, 1⟩ (1, 1, 1)
    (0, 0, 0) (0, 0, 0) 1 (true, true, true) (by decide) (by decide) (by decide)
    _ (by norm_num [depositContribs3D, compute_shape_factor, List.range_succ])

/-! ## Tiled / direct equivalence -/

theorem depositList_apply {P ι K : Type} [DecidableEq ι] [AddCommMonoid K]
    (cf : P → List (ι × K)) (ps : List P) (g : ι → K) (c : ι) :
    depositList cf g ps c
      = g c + (ps.map (fun p => scatter (fun _ => 0) (cf p) c)).sum := by
  induction ps generalizing g with
  | nil => simp [depositList]
  | cons p ps ih =>
      simp only [depositList, List.foldl_cons] at *
      rw [ih, scatter_eq_add_zero, List.map_cons, List.sum_cons, add_assoc]

theorem depositTiles_apply {P ι K : Type} [DecidableEq ι] [AddCommMonoid K]
    (cf : P → List (ι × K)) (tiles : List (List P)) (g : ι → K) (c : ι) :
    depositTiles cf g tiles c
      = g c + (tiles.map (fun t => depositList cf (fun _ => 0) t c)).sum := by
  induction tiles generalizing g with
  | nil => simp [depositTiles]
  | cons t ts ih =>
      simp only [depositTiles, List.foldl_cons] at *
      rw [ih, List.map_cons, List.sum_cons, add_assoc]

/-- The tiled pass (private zero buffers, merged per tile) agrees with the
direct pass everywhere, as soon as the tiles partition the batch up to
order (the binning invariant: every particle index appears in exactly one
tile bucket). -/
theorem depositTiles_eq_depositList {P ι K : Type} [DecidableEq ι]
    [AddCommMonoid K] (cf : P → List (ι × K)) {tiles : List (List P)}
    {ps : List P} (h : tiles.flatten.Perm ps) (g : ι → K) (c : ι) :
    depositTiles cf g tiles c = depositList cf g ps c := by
  rw [depositTiles_apply, depositList_apply]
  congr 1
  have h1 : ∀ t : List P, depositList cf (fun _ => 0) t c
      = (t.map (fun p => scatter (fun _ => 0) (cf p) c)).sum := by
    intro t; rw [depositList_apply]; simp
  simp only [h1]
  rw [← List.Perm.sum_eq (List.Perm.map (fun p => scatter (fun _ => 0) (cf p) c) h),
    List.map_flatten, List.sum_flatten, List.map_map]
  rfl

/-- Claim C2: tiled/direct equivalence.  For every particle batch and
identical grid, geometry, charge, staggering and mode-count inputs, the
grid produced by the tiled kernel `doChargeDepositionSharedShapeN` equals
the grid produced by the direct kernel `doChargeDepositionShapeN` in exact
arithmetic, in both the 3D Cartesian and the RZ branch: the tiled kernel
only reorders the same per-particle contributions through per-tile private
buffers and a final merge. -/
theorem tiled_direct_equivalence
    (depos_order : ℕ) (do_ionization : Bool)
    (tiles : List (List ParticleXYZ)) (particles : List ParticleXYZ)
    (hperm : tiles.flatten.Perm particles)
    (rho : Cell3D → ℚ) (dx : ℚ × ℚ × ℚ) (xyzmin : ℚ × ℚ × ℚ) (lo : Cell3D)
    (q : ℚ) (rho_type : Bool × Bool × Bool)
    (tilesRZ : List (List ParticleRZ)) (particlesRZ : List ParticleRZ)
    (hpermRZ : tilesRZ.flatten.Perm particlesRZ)
    (rhoRZ : CellRZ → ℝ) (dxRZ : ℝ × ℝ) (xmin zmin : ℝ) (loRZ : ℤ × ℤ)
    (qRZ : ℝ) (rho_typeRZ : Bool × Bool) (n_modes : ℕ) :
    (∀ c, doChargeDepositionSharedShapeN3D depos_order tiles do_ionization
        rho dx xyzmin lo q rho_type c
      = doChargeDepositionShapeN3D depos_order particles do_ionization rho
        dx xyzmin lo q rho_type c)
    ∧ (∀ c, doChargeDepositionSharedShapeNRZ depos_order tilesRZ
        do_ionization rhoRZ dxRZ xmin zmin loRZ qRZ rho_typeRZ n_modes c
      = doChargeDepositionShapeNRZ depos_order particlesRZ do_ionization
        rhoRZ dxRZ xmin zmin loRZ qRZ rho_typeRZ n_modes c) :=
  ⟨fun c => depositTiles_eq_depositList _ hperm rho c,
   fun c => depositTiles_eq_depositList _ hpermRZ rhoRZ c⟩

/-- Witness for C2: two particles in two tiles, deposited in the opposite
order by the direct kernel; a single on-axis RZ particle in one tile. -/
theorem tiled_direct_equivalence_witness :
    (∀ c, doChargeDepositionSharedShapeN3D 1
        [[⟨1, 0, 0, 1, 1⟩], [⟨2, 0, 0, 1, 1⟩]] false (fun _ => 0)
        (1, 1, 1) (0, 0, 0) (0, 0, 0) 1 (true, true, true) c
      = doChargeDepositionShapeN3D 1 [⟨2, 0, 0, 1, 1⟩, ⟨1, 0, 0, 1, 1⟩]
        false (fun _ => 0) (1, 1, 1) (0, 0, 0) (0, 0, 0) 1
        (true, true, true) c)
    ∧ (∀ c, doChargeDepositionSharedShapeNRZ 1 [[⟨0, 0, 0, 1, 1⟩]] false
        (fun _ => 0) (1, 1) 0 0 (0, 0) 1 (true, true) 2 c
      = doChargeDepositionShapeNRZ 1 [⟨0, 0, 0, 1, 1⟩] false (fun _ => 0)
        (1, 1) 0 0 (0, 0) 1 (true, true) 2 c) :=
  tiled_direct_equivalence 1 false
    [[⟨1, 0, 0, 1, 1⟩], [⟨2, 0, 0, 1, 1⟩]] [⟨2, 0, 0, 1, 1⟩, ⟨1, 0, 0, 1, 1⟩]
    (by decide) (fun _ => 0) (1, 1, 1) (0, 0, 0) (0, 0, 0) 1
    (true, true, true) [[⟨0, 0, 0, 1, 1⟩]] [⟨0, 0, 0, 1, 1⟩]
    (by simp) (fun _ => 0) (1, 1) 0 0 (0, 0) 1 (true, true) 2

/-! ## Azimuthal-mode deposition weights -/

theorem scatter_apply_ite {ι K : Type} [DecidableEq ι] [AddCommMonoid K]
    (ps : List (ι × K)) (g : ι → K) (c : ι) :
    scatter g ps c
      = g c + (ps.map (fun p => if p.1 = c then p.2 else 0)).sum := by
  induction ps generalizing g with
  | nil => simp [scatter]
  | cons p ps ih =>
      rw [scatter_cons, ih, List.map_cons, List.sum_cons, addAt_apply]
      by_cases h : p.1 = c
      · subst h; simp [add_assoc]
      · have h2 : ¬ (c = p.1) := fun hc => h hc.symm
        simp [h, h2]

theorem cmul_comm {K : Type} [CommRing K] (u v : K × K) :
    cmul u v = cmul v u := by
  simp only [cmul, Prod.mk.injEq]
  constructor <;> ring

theorem cmul_assoc {K : Type} [CommRing K] (u v w : K × K) :
    cmul (cmul u v) w = cmul u (cmul v w) := by
  simp only [cmul, Prod.mk.injEq]
  constructor <;> ring

theorem cmul_one {K : Type} [CommRing K] (u : K × K) :
    cmul u (1, 0) = u := by
  rw [Prod.ext_iff]
  constructor <;> simp [cmul]

theorem cpowC_succ {K : Type} [CommRing K] (u : K × K) (m : ℕ) :
    cpowC u (m + 1) = cmul (cpowC u m) u := rfl

/-- Summing `if i = i0 then f i else 0` over `List.range n`. -/
theorem sum_map_range_ite {K : Type} [AddCommMonoid K] (n i0 : ℕ)
    (f : ℕ → K) :
    ((List.range n).map (fun i => if i = i0 then f i else 0)).sum
      = if i0 < n then f i0 else 0 := by
  induction n with
  | zero => simp
  | succ n ih =>
      rw [List.range_succ, List.map_append, List.sum_append, ih]
      rcases lt_trichotomy i0 n with h | h | h
      · have h1 : ¬ n = i0 := by omega
        have h2 : i0 < n + 1 := by omega
        simp [h, h1, h2]
      · subst h
        simp
      · have h1 : ¬ i0 < n := by omega
        have h2 : ¬ n = i0 := by omega
        have h3 : ¬ i0 < n + 1 := by omega
        simp [h1, h2, h3]

/-- Double stencil sum of an indicator of a single `(ix, iz)` pair. -/
theorem sum_range_range_ite {K : Type} [AddCommMonoid K] (n1 n2 ix iz : ℕ)
    (hix : ix < n2) (hiz : iz < n1) (V : K) :
    ((List.range n1).map (fun iz' =>
      ((List.range n2).map (fun ix' =>
        if ix' = ix ∧ iz' = iz then V else 0)).sum)).sum = V := by
  have hinner : ∀ iz' : ℕ,
      ((List.range n2).map (fun ix' =>
        if ix' = ix ∧ iz' = iz then V else 0)).sum
      = if iz' = iz then V else 0 := by
    intro iz'
    by_cases hz : iz' = iz
    · subst hz
      simp only [and_true]
      rw [sum_map_range_ite n2 ix (fun _ => V), if_pos hix]
      simp
    · simp [hz]
  simp only [hinner]
  rw [sum_map_range_ite n1 iz (fun _ => V), if_pos hiz]

/-- Value collected at the mode-`m` cosine component `2m-1` by the
azimuthal loop entered with `xy` at counter `j`: present exactly when the
loop reaches `m`, with weight `2*v*(xy*xy0^(m-j)).re`. -/
theorem modeLoop_sum_cos {K : Type} [CommRing K] (ci ck : ℤ) (v : K)
    (xy0 : K × K) (m : ℕ) (hm : 1 ≤ m) :
    ∀ (fuel : ℕ) (xy : K × K) (j : ℕ), 1 ≤ j →
      ((modeLoopAux ci ck v xy0 fuel xy j).map
        (fun p => if p.1 = ((ci, ck, 2*m - 1) : CellRZ) then p.2 else 0)).sum
      = if j ≤ m ∧ m < j + fuel
        then 2 * v * (cmul xy (cpowC xy0 (m - j))).1 else 0 := by
  intro fuel
  induction fuel with
  | zero =>
      intro xy j hj
      rw [if_neg (by omega)]
      simp [modeLoopAux]
  | succ fuel ih =>
      intro xy j hj
      simp only [modeLoopAux, List.map_cons, List.sum_cons]
      rw [ih (cmul xy xy0) (j + 1) (by omega)]
      rcases lt_trichotomy j m with hjm | hjm | hjm
      · have h1 : ¬ (((ci, ck, 2*j - 1) : CellRZ) = (ci, ck, 2*m - 1)) := by
          simp only [Prod.mk.injEq]; omega
        have h2 : ¬ (((ci, ck, 2*j) : CellRZ) = (ci, ck, 2*m - 1)) := by
          simp only [Prod.mk.injEq]; omega
        rw [if_neg h1, if_neg h2, zero_add, zero_add]
        by_cases hc : m < j + 1 + fuel
        · rw [if_pos ⟨by omega, hc⟩, if_pos ⟨by omega, by omega⟩]
          have hsub : m - j = (m - (j + 1)) + 1 := by omega
          rw [hsub, cpowC_succ, cmul_assoc,
            cmul_comm xy0 (cpowC xy0 (m - (j + 1)))]
        · rw [if_neg (by omega), if_neg (by omega)]
      · subst hjm
        have h2 : ¬ (((ci, ck, 2*j) : CellRZ) = (ci, ck, 2*j - 1)) := by
          simp only [Prod.mk.injEq]; omega
        rw [if_pos rfl, if_neg h2, if_neg (by omega),
          if_pos ⟨le_refl j, by omega⟩, Nat.sub_self]
        simp [cpowC, cmul_one]
      · have h1 : ¬ (((ci, ck, 2*j - 1) : CellRZ) = (ci, ck, 2*m - 1)) := by
          simp only [Prod.mk.injEq]; omega
        have h2 : ¬ (((ci, ck, 2*j) : CellRZ) = (ci, ck, 2*m - 1)) := by
          simp only [Prod.mk.injEq]; omega
        rw [if_neg h1, if_neg h2, if_neg (by omega), if_neg (by omega)]
        simp

/-- Value collected at the mode-`m` sine component `2m` by the azimuthal
loop entered with `xy` at counter `j`. -/
theorem modeLoop_sum_sin {K : Type} [CommRing K] (ci ck : ℤ) (v : K)
    (xy0 : K × K) (m : ℕ) (hm : 1 ≤ m) :
    ∀ (fuel : ℕ) (xy : K × K) (j : ℕ), 1 ≤ j →
      ((modeLoopAux ci ck v xy0 fuel xy j).map
        (fun p => if p.1 = ((ci, ck, 2*m) : CellRZ) then p.2 else 0)).sum
      = if j ≤ m ∧ m < j + fuel
        then 2 * v * (cmul xy (cpowC xy0 (m - j))).2 else 0 := by
  intro fuel
  induction fuel with
  | zero =>
      intro xy j hj
      rw [if_neg (by omega)]
      simp [modeLoopAux]
  | succ fuel ih =>
      intro xy j hj
      simp only [modeLoopAux, List.map_cons, List.sum_cons]
      rw [ih (cmul xy xy0) (j + 1) (by omega)]
      rcases lt_trichotomy j m with hjm | hjm | hjm
      · have h1 : ¬ (((ci, ck, 2*j - 1) : CellRZ) = (ci, ck, 2*m)) := by
          simp only [Prod.mk.injEq]; omega
        have h2 : ¬ (((ci, ck, 2*j) : CellRZ) = (ci, ck, 2*m)) := by
          simp only [Prod.mk.injEq]; omega
        rw [if_neg h1, if_neg h2, zero_add, zero_add]
        by_cases hc : m < j + 1 + fuel
        · rw [if_pos ⟨by omega, hc⟩, if_pos ⟨by omega, by omega⟩]
          have hsub : m - j = (m - (j + 1)) + 1 := by omega
          rw [hsub, cpowC_succ, cmul_assoc,
            cmul_comm xy0 (cpowC xy0 (m - (j + 1)))]
        · rw [if_neg (by omega), if_neg (by omega)]
      · subst hjm
        have h1 : ¬ (((ci, ck, 2*j - 1) : CellRZ) = (ci, ck, 2*j)) := by
          simp only [Prod.mk.injEq]; omega
        rw [if_neg h1, if_pos rfl, if_neg (by omega),
          if_pos ⟨le_refl j, by omega⟩, Nat.sub_self]
        simp [cpowC, cmul_one]
      · have h1 : ¬ (((ci, ck, 2*j - 1) : CellRZ) = (ci, ck, 2*m)) := by
          simp only [Prod.mk.injEq]; omega
        have h2 : ¬ (((ci, ck, 2*j) : CellRZ) = (ci, ck, 2*m)) := by
          simp only [Prod.mk.injEq]; omega
        rw [if_neg h1, if_neg h2, if_neg (by omega), if_neg (by omega)]
        simp

/-- The azimuthal loop deposits nothing at a different stencil cell. -/
theorem modeLoop_sum_ne {K : Type} [CommRing K] (ci ck ci' ck' : ℤ)
    (comp : ℕ) (h : ¬ (ci = ci' ∧ ck = ck')) (v : K) (xy0 : K × K) :
    ∀ (fuel : ℕ) (xy : K × K) (j : ℕ),
      ((modeLoopAux ci ck v xy0 fuel xy j).map
        (fun p => if p.1 = ((ci', ck', comp) : CellRZ) then p.2 else 0)).sum
      = 0 := by
  intro fuel
  induction fuel with
  | zero => intro xy j; simp [modeLoopAux]
  | succ fuel ih =>
      intro xy j
      simp only [modeLoopAux, List.map_cons, List.sum_cons]
      rw [ih (cmul xy xy0) (j + 1),
        if_neg (by simp only [Prod.mk.injEq]; tauto),
        if_neg (by simp only [Prod.mk.injEq]; tauto)]
      simp

/-- Full per-cell contribution to the mode-`m` cosine component. -/
theorem perCell_sum_cos {K : Type} [CommRing K] (ci ck : ℤ) (s wq : K)
    (xy0 : K × K) (n m : ℕ) (hm : 1 ≤ m) (hmn : m < n) :
    ((perCellContribsRZ ci ck s wq xy0 n).map
      (fun p => if p.1 = ((ci, ck, 2*m - 1) : CellRZ) then p.2 else 0)).sum
    = 2 * (s * wq) * (cpowC xy0 m).1 := by
  simp only [perCellContribsRZ, List.map_cons, List.sum_cons]
  have h0 : ¬ (((ci, ck, 0) : CellRZ) = (ci, ck, 2*m - 1)) := by
    simp only [Prod.mk.injEq]; omega
  rw [if_neg h0, zero_add,
    modeLoop_sum_cos ci ck (s * wq) xy0 m hm (n - 1) xy0 1 (le_refl 1),
    if_pos ⟨hm, by omega⟩]
  conv_rhs => rw [show m = (m - 1) + 1 from by omega]
  rw [cpowC_succ, cmul_comm xy0 (cpowC xy0 (m - 1))]

/-- Full per-cell contribution to the mode-`m` sine component. -/
theorem perCell_sum_sin {K : Type} [CommRing K] (ci ck : ℤ) (s wq : K)
    (xy0 : K × K) (n m : ℕ) (hm : 1 ≤ m) (hmn : m < n) :
    ((perCellContribsRZ ci ck s wq xy0 n).map
      (fun p => if p.1 = ((ci, ck, 2*m) : CellRZ) then p.2 else 0)).sum
    = 2 * (s * wq) * (cpowC xy0 m).2 := by
  simp only [perCellContribsRZ, List.map_cons, List.sum_cons]
  have h0 : ¬ (((ci, ck, 0) : CellRZ) = (ci, ck, 2*m)) := by
    simp only [Prod.mk.injEq]; omega
  rw [if_neg h0, zero_add,
    modeLoop_sum_sin ci ck (s * wq) xy0 m hm (n - 1) xy0 1 (le_refl 1),
    if_pos ⟨hm, by omega⟩]
  conv_rhs => rw [show m = (m - 1) + 1 from by omega]
  rw [cpowC_succ, cmul_comm xy0 (cpowC xy0 (m - 1))]

/-- A stencil cell contributes nothing to another cell's components. -/
theorem perCell_sum_ne {K : Type} [CommRing K] (ci ck ci' ck' : ℤ)
    (comp : ℕ) (h : ¬ (ci = ci' ∧ ck = ck')) (s wq : K) (xy0 : K × K)
    (n : ℕ) :
    ((perCellContribsRZ ci ck s wq xy0 n).map
      (fun p => if p.1 = ((ci', ck', comp) : CellRZ) then p.2 else 0)).sum
    = 0 := by
  simp only [perCellContribsRZ, List.map_cons, List.sum_cons]
  rw [if_neg (by simp only [Prod.mk.injEq]; tauto),
    modeLoop_sum_ne ci ck ci' ck' comp h (s * wq) xy0 (n - 1) xy0 1]
  simp

/-- Grid value at the mode-`m` cosine component of stencil cell
`(ix, iz)` after scattering one particle's RZ contributions onto the zero
grid. -/
theorem rzContribs_value_cos {K : Type} [CommRing K] (depos_order : ℕ)
    (lo : ℤ × ℤ) (i k : ℤ) (sx sz : List K) (wq : K) (xy0 : K × K)
    (n ix iz m : ℕ) (hix : ix < depos_order + 1) (hiz : iz < depos_order + 1)
    (hm : 1 ≤ m) (hmn : m < n) :
    scatter (fun _ => 0) (rzContribs depos_order lo i k sx sz wq xy0 n)
      (lo.1 + i + (ix : ℤ), lo.2 + k + (iz : ℤ), 2*m - 1)
    = 2 * (sx.getD ix 0 * sz.getD iz 0 * wq) * (cpowC xy0 m).1 := by
  rw [scatter_apply_ite]
  simp only [rzContribs, List.map_flatten, List.map_map, List.sum_flatten,
    Function.comp_def]
  have hcell : ∀ iz' ix' : ℕ,
      ((perCellContribsRZ (lo.1 + i + (ix' : ℤ)) (lo.2 + k + (iz' : ℤ))
          (sx.getD ix' 0 * sz.getD iz' 0) wq xy0 n).map
        (fun p => if p.1 = ((lo.1 + i + (ix : ℤ), lo.2 + k + (iz : ℤ),
            2*m - 1) : CellRZ) then p.2 else 0)).sum
      = if ix' = ix ∧ iz' = iz
        then 2 * (sx.getD ix 0 * sz.getD iz 0 * wq) * (cpowC xy0 m).1
        else 0 := by
    intro iz' ix'
    by_cases hxz : ix' = ix ∧ iz' = iz
    · obtain ⟨rfl, rfl⟩ := hxz
      rw [if_pos ⟨rfl, rfl⟩]
      exact perCell_sum_cos _ _ _ _ _ _ _ hm hmn
    · rw [if_neg hxz]
      apply perCell_sum_ne
      rintro ⟨h1, h2⟩
      exact hxz ⟨by omega, by omega⟩
  simp only [hcell]
  rw [sum_range_range_ite (depos_order + 1) (depos_order + 1) ix iz hix hiz]
  simp

/-- Grid value at the mode-`m` sine component of stencil cell `(ix, iz)`
after scattering one particle's RZ contributions onto the zero grid. -/
theorem rzContribs_value_sin {K : Type} [CommRing K] (depos_order : ℕ)
    (lo : ℤ × ℤ) (i k : ℤ) (sx sz : List K) (wq : K) (xy0 : K × K)
    (n ix iz m : ℕ) (hix : ix < depos_order + 1) (hiz : iz < depos_order + 1)
    (hm : 1 ≤ m) (hmn : m < n) :
    scatter (fun _ => 0) (rzContribs depos_order lo i k sx sz wq xy0 n)
      (lo.1 + i + (ix : ℤ), lo.2 + k + (iz : ℤ), 2*m)
    = 2 * (sx.getD ix 0 * sz.getD iz 0 * wq) * (cpowC xy0 m).2 := by
  rw [scatter_apply_ite]
  simp only [rzContribs, List.map_flatten, List.map_map, List.sum_flatten,
    Function.comp_def]
  have hcell : ∀ iz' ix' : ℕ,
      ((perCellContribsRZ (lo.1 + i + (ix' : ℤ)) (lo.2 + k + (iz' : ℤ))
          (sx.getD ix' 0 * sz.getD iz' 0) wq xy0 n).map
        (fun p => if p.1 = ((lo.1 + i + (ix : ℤ), lo.2 + k + (iz : ℤ),
            2*m) : CellRZ) then p.2 else 0)).sum
      = if ix' = ix ∧ iz' = iz
        then 2 * (sx.getD ix 0 * sz.getD iz 0 * wq) * (cpowC xy0 m).2
        else 0 := by
    intro iz' ix'
    by_cases hxz : ix' = ix ∧ iz' = iz
    · obtain ⟨rfl, rfl⟩ := hxz
      rw [if_pos ⟨rfl, rfl⟩]
      exact perCell_sum_sin _ _ _ _ _ _ _ hm hmn
    · rw [if_neg hxz]
      apply perCell_sum_ne
      rintro ⟨h1, h2⟩
      exact hxz ⟨by omega, by omega⟩
  simp only [hcell]
  rw [sum_range_range_ite (depos_order + 1) (depos_order + 1) ix iz hix hiz]
  simp

/-- Claim C7: azimuthal-mode deposition weights in RZ geometry.  For every
requested mode `m` with `1 ≤ m < n_rz_azimuthal_modes`, in addition to the
monopole deposit, each stencil cell `(ix, iz)` receives
`2*(tensor weight)*wq*cos(mθ)` into array component `2m-1` and
`2*(tensor weight)*wq*sin(mθ)` into component `2m`, where `cos(mθ)` and
`sin(mθ)` are the real and imaginary parts of `(cosθ + i sinθ)^m` computed
by the kernel's repeated complex multiplication of the unit direction
vector. -/
theorem rz_azimuthal_mode_weights (depos_order : ℕ) (dx : ℚ × ℚ)
    (xmin zmin : ℚ) (lo : ℤ × ℤ) (q : ℚ) (rho_type : Bool × Bool)
    (n_modes : ℕ) (rp costheta sintheta zp wp : ℚ) (ion_lev : ℤ)
    (i k : ℤ) (sx sz : List ℚ) (m ix iz : ℕ)
    (hi : compute_shape_factor depos_order
        (if rho_type.1 then (rp - xmin) * (1 / dx.1)
         else (rp - xmin) * (1 / dx.1) - 1/2) = (i, sx))
    (hk : compute_shape_factor depos_order
        (if rho_type.2 then (zp - zmin) * (1 / dx.2)
         else (zp - zmin) * (1 / dx.2) - 1/2) = (k, sz))
    (hix : ix ≤ depos_order) (hiz : iz ≤ depos_order)
    (hm : 1 ≤ m) (hmn : m < n_modes) :
    doChargeDepositionShapeNRZ_at depos_order (fun _ => 0) false dx xmin zmin
        lo q rho_type n_modes rp costheta sintheta zp wp ion_lev
        (lo.1 + i + (ix : ℤ), lo.2 + k + (iz : ℤ), 2*m - 1)
      = 2 * (sx.getD ix 0 * sz.getD iz 0)
          * (q * wp * (1 / dx.1 * (1 / dx.2)))
          * (cpowC (costheta, sintheta) m).1
    ∧ doChargeDepositionShapeNRZ_at depos_order (fun _ => 0) false dx xmin
        zmin lo q rho_type n_modes rp costheta sintheta zp wp ion_lev
        (lo.1 + i + (ix : ℤ), lo.2 + k + (iz : ℤ), 2*m)
      = 2 * (sx.getD ix 0 * sz.getD iz 0)
          * (q * wp * (1 / dx.1 * (1 / dx.2)))
          * (cpowC (costheta, sintheta) m).2 := by
  simp only [doChargeDepositionShapeNRZ_at, depositContribsRZ_at,
    Bool.false_eq_true, if_false, hi, hk]
  constructor
  · rw [rzContribs_value_cos depos_order lo i k sx sz _ _ n_modes ix iz m
      (by omega) (by omega) hm hmn]
    ring
  · rw [rzContribs_value_sin depos_order lo i k sx sz _ _ n_modes ix iz m
      (by omega) (by omega) hm hmn]
    ring

/-- Witness for C7: order-0 shape, particle on the axis direction `θ = 0`
(`cosθ = 1`, `sinθ = 0`), mode 1 of 2 requested; the mode-1 cosine
component at the single stencil cell equals `2*(tensor weight)*wq = 2` and
the sine component equals 0. -/
theorem rz_azimuthal_mode_weights_witness :
    doChargeDepositionShapeNRZ_at 0 (fun _ => 0) false (1, 1) 0 0 (0, 0) 1
        (true, true) 2 0 1 0 0 1 1 ((0 : ℤ) + 0 + ((0 : ℕ) : ℤ),
          (0 : ℤ) + 0 + ((0 : ℕ) : ℤ), 2*1 - 1)
      = 2 * (([(1 : ℚ)].getD 0 0) * ([(1 : ℚ)].getD 0 0))
          * (1 * 1 * (1 / 1 * (1 / 1))) * (cpowC ((1 : ℚ), (0 : ℚ)) 1).1
    ∧ doChargeDepositionShapeNRZ_at 0 (fun _ => 0) false (1, 1) 0 0 (0, 0) 1
        (true, true) 2 0 1 0 0 1 1 ((0 : ℤ) + 0 + ((0 : ℕ) : ℤ),
          (0 : ℤ) + 0 + ((0 : ℕ) : ℤ), 2*1)
      = 2 * (([(1 : ℚ)].getD 0 0) * ([(1 : ℚ)].getD 0 0))
          * (1 * 1 * (1 / 1 * (1 / 1))) * (cpowC ((1 : ℚ), (0 : ℚ)) 1).2 :=
  rz_azimuthal_mode_weights 0 (1, 1) 0 0 (0, 0) 1 (true, true) 2 0 1 0 0 1 1
    0 0 [1] [1] 1 0 0
    (by norm_num [compute_shape_factor])
    (by norm_num [compute_shape_factor])
    (by decide) (by decide) (by decide) (by decide)

/-- Claim C9: on-axis safety of the RZ direction decomposition.  When the
radius `rp = sqrt(xp² + yp²)` is zero, both deposition kernels take the
guarded branch and use `costheta = 1`, `sintheta = 0` instead of dividing
by `rp`, and the particle deposits exactly as a particle at angle `θ = 0`
(pure cosine): the contribution list, the direct kernel and the shared
(tiled) kernel all coincide with their `(rp, cosθ, sinθ) = (0, 1, 0)`
instances. -/
theorem rz_on_axis_safety (xp yp : ℝ)
    (h : Real.sqrt (xp * xp + yp * yp) = 0) :
    rz_costheta xp yp = 1 ∧ rz_sintheta xp yp = 0 ∧
    (∀ (depos_order : ℕ) (do_ionization : Bool) (dx : ℝ × ℝ)
        (xmin zmin : ℝ) (lo : ℤ × ℤ) (q : ℝ) (rho_type : Bool × Bool)
        (n_modes : ℕ) (zp wp : ℝ) (ion_lev : ℤ),
      depositContribsRZ depos_order do_ionization dx xmin zmin lo q rho_type
          n_modes ⟨xp, yp, zp, wp, ion_lev⟩
        = depositContribsRZ_at depos_order do_ionization dx xmin zmin lo q
            rho_type n_modes 0 1 0 zp wp ion_lev) ∧
    (∀ (depos_order : ℕ) (do_ionization : Bool) (rho : CellRZ → ℝ)
        (dx : ℝ × ℝ) (xmin zmin : ℝ) (lo : ℤ × ℤ) (q : ℝ)
        (rho_type : Bool × Bool) (n_modes : ℕ) (zp wp : ℝ) (ion_lev : ℤ),
      doChargeDepositionShapeNRZ depos_order [⟨xp, yp, zp, wp, ion_lev⟩]
          do_ionization rho dx xmin zmin lo q rho_type n_modes
        = doChargeDepositionShapeNRZ_at depos_order rho do_ionization dx
            xmin zmin lo q rho_type n_modes 0 1 0 zp wp ion_lev) ∧
    (∀ (depos_order : ℕ) (do_ionization : Bool) (rho : CellRZ → ℝ)
        (dx : ℝ × ℝ) (xmin zmin : ℝ) (lo : ℤ × ℤ) (q : ℝ)
        (rho_type : Bool × Bool) (n_modes : ℕ) (zp wp : ℝ) (ion_lev : ℤ),
      doChargeDepositionSharedShapeNRZ depos_order [[⟨xp, yp, zp, wp, ion_lev⟩]]
          do_ionization rho dx xmin zmin lo q rho_type n_modes
        = fun c => rho c + doChargeDepositionShapeNRZ_at depos_order
            (fun _ => 0) do_ionization dx xmin zmin lo q rho_type n_modes
            0 1 0 zp wp ion_lev c) := by
  have hc : rz_costheta xp yp = 1 := by
    rw [rz_costheta, h]
    norm_num
  have hs : rz_sintheta xp yp = 0 := by
    rw [rz_sintheta, h]
    norm_num
  have h3 : ∀ (depos_order : ℕ) (do_ionization : Bool) (dx : ℝ × ℝ)
      (xmin zmin : ℝ) (lo : ℤ × ℤ) (q : ℝ) (rho_type : Bool × Bool)
      (n_modes : ℕ) (zp wp : ℝ) (ion_lev : ℤ),
      depositContribsRZ depos_order do_ionization dx xmin zmin lo q rho_type
          n_modes ⟨xp, yp, zp, wp, ion_lev⟩
        = depositContribsRZ_at depos_order do_ionization dx xmin zmin lo q
            rho_type n_modes 0 1 0 zp wp ion_lev := by
    intro depos_order do_ionization dx xmin zmin lo q rho_type n_modes zp wp ion_lev
    rw [depositContribsRZ]
    simp only [h, hc, hs]
  refine ⟨hc, hs, h3, ?_, ?_⟩
  · intro depos_order do_ionization rho dx xmin zmin lo q rho_type n_modes zp wp ion_lev
    simp only [doChargeDepositionShapeNRZ, depositList, List.foldl_cons,
      List.foldl_nil, doChargeDepositionShapeNRZ_at, h3]
  · intro depos_order do_ionization rho dx xmin zmin lo q rho_type n_modes zp wp ion_lev
    simp only [doChargeDepositionSharedShapeNRZ, depositTiles, depositList,
      List.foldl_cons, List.foldl_nil, doChargeDepositionShapeNRZ_at, h3]

/-- Witness for C9: the particle at the exact axis `xp = yp = 0` has zero
radius and gets the `θ = 0` decomposition. -/
theorem rz_on_axis_safety_witness :
    rz_costheta 0 0 = 1 ∧ rz_sintheta 0 0 = 0 :=
  ⟨(rz_on_axis_safety 0 0 (by norm_num)).1,
   (rz_on_axis_safety 0 0 (by norm_num)).2.1⟩

theorem foldl_id_of_identity {α σ : Type} (f : σ → α → σ) (l : List α)
    (s : σ) (h : ∀ x ∈ l, ∀ t, f t x = t) : l.foldl f s = s := by
  induction l generalizing s with
  | nil => rfl
  | cons b l ih =>
      rw [List.foldl_cons, h b (List.mem_cons_self _ _)]
      exact ih s (fun x hx => h x (List.mem_cons_of_mem _ hx))

theorem foldl_single_mem {α σ : Type} (f : σ → α → σ) (l : List α) (a : α)
    (h1 : ∀ x ∈ l, x ≠ a → ∀ t, f t x = t) (hnd : l.Nodup) (ha : a ∈ l)
    (s : σ) : l.foldl f s = f s a := by
  induction l generalizing s with
  | nil => simp at ha
  | cons b l ih =>
      obtain ⟨hbl, hl⟩ := List.nodup_cons.mp hnd
      by_cases hb : b = a
      · subst hb
        rw [List.foldl_cons]
        exact foldl_id_of_identity f l (f s b) (fun x hx t =>
          h1 x (List.mem_cons_of_mem _ hx) (fun hxa => hbl (hxa ▸ hx)) t)
      · have ha' : a ∈ l := by
          rcases List.mem_cons.mp ha with h | h
          · exact absurd h.symm hb
          · exact h
        rw [List.foldl_cons, h1 b (List.mem_cons_self _ _) hb]
        exact ih (fun x hx hxa => h1 x (List.mem_cons_of_mem _ hx) hxa) hl
          ha' s

theorem mem_pecPairs (p : Fin 3 × Fin 2) : p ∈ pecPairs := by
  fin_cases p <;> decide

theorem pecPairs_nodup : pecPairs.Nodup := by decide

/-- The flag update of one mirror round, isolated. -/
theorem pecMirrorStep_OnPEC (flip : Fin 3 → Bool)
    (dom_lo dom_hi ijk_vec is_nodal : IntVec)
    (fbndry_lo fbndry_hi : Fin 3 → Bool) (s : PECMirrorState)
    (p : Fin 3 × Fin 2) :
    (pecMirrorStep flip dom_lo dom_hi ijk_vec is_nodal fbndry_lo fbndry_hi
        s p).OnPECBoundary
      = (s.OnPECBoundary
          || onPECBoundaryCond flip dom_lo dom_hi ijk_vec is_nodal
              fbndry_lo fbndry_hi p) := by
  unfold pecMirrorStep onPECBoundaryCond
  split_ifs with h1 h2 h3 h4 <;> simp_all

/-- The `OnPECBoundary` flag after the whole loop: raised exactly when
some `(idim, iside)` round raises it. -/
theorem pecMirrorRun_OnPEC (flip : Fin 3 → Bool)
    (dom_lo dom_hi ijk_vec is_nodal : IntVec)
    (fbndry_lo fbndry_hi : Fin 3 → Bool) :
    ∀ (l : List (Fin 3 × Fin 2)) (s : PECMirrorState),
      ((l.foldl (pecMirrorStep flip dom_lo dom_hi ijk_vec is_nodal
          fbndry_lo fbndry_hi) s).OnPECBoundary)
        = (s.OnPECBoundary
            || l.any (onPECBoundaryCond flip dom_lo dom_hi ijk_vec is_nodal
                fbndry_lo fbndry_hi)) := by
  intro l
  induction l with
  | nil => intro s; simp
  | cons b l ih =>
      intro s
      rw [List.foldl_cons, ih, pecMirrorStep_OnPEC, List.any_cons,
        Bool.or_assoc]

/-- Claim C3: PEC tangential-field zeroing.  For every grid cell exactly
on a PEC boundary (`ig = 0`) along an axis on which the array is
node-staggered, and every electric-field component tangential to that
boundary (3D classification `icomp ≠ idim`), `SetEfieldOnPEC` sets the
field value at that cell to exactly 0, regardless of its previous
value. -/
theorem pec_tangential_zeroing (icomp : ℕ)
    (dom_lo dom_hi ijk_vec is_nodal : IntVec) (n : ℕ) (Efield : Field3)
    (fbndry_lo fbndry_hi : Fin 3 → Bool) (idim : Fin 3) (iside : Fin 2)
    (hpec : isPECBoundary fbndry_lo fbndry_hi (idim, iside) = true)
    (hig : get_cell_count_to_boundary dom_lo dom_hi ijk_vec is_nodal idim
        iside = 0)
    (htan : icomp ≠ (idim : ℕ)) (hnodal : is_nodal idim = 1) :
    SetEfieldOnPEC icomp dom_lo dom_hi ijk_vec n Efield is_nodal fbndry_lo
      fbndry_hi (ijk_vec, n) = 0 := by
  unfold SetEfieldOnPEC pecMirrorPass
  have hOn : (pecPairs.foldl (pecMirrorStep (Etang3D icomp) dom_lo dom_hi
      ijk_vec is_nodal fbndry_lo fbndry_hi)
      ⟨ijk_vec, false, false, 1⟩).OnPECBoundary = true := by
    rw [pecMirrorRun_OnPEC]
    simp only [Bool.false_or, List.any_eq_true]
    refine ⟨(idim, iside), mem_pecPairs _, ?_⟩
    unfold onPECBoundaryCond
    simp [hpec, hig, hnodal, Etang3D, htan]
  simp only [hOn, if_true, Function.update_same]

/-- Witness for C3: low-`x` PEC boundary, node-staggered field, the
tangential component `icomp = 1` at the on-boundary cell `(0, 5, 5)` is
zeroed from the previous value 7. -/
theorem pec_tangential_zeroing_witness :
    SetEfieldOnPEC 1 ![0, 0, 0] ![9, 9, 9] ![0, 5, 5] 0 (fun _ => 7)
      ![1, 1, 1] ![true, false, false] ![false, false, false]
      (![0, 5, 5], 0) = 0 :=
  pec_tangential_zeroing 1 ![0, 0, 0] ![9, 9, 9] ![0, 5, 5] ![1, 1, 1] 0
    (fun _ => 7) ![true, false, false] ![false, false, false] 0 0
    (by decide) (by decide) (by decide) (by decide)

/-- A round at a non-PEC boundary, or at a cell strictly inside the domain
for this axis/side (`ig < 0`), leaves the loop state unchanged. -/
theorem pecMirrorStep_inactive (flip : Fin 3 → Bool)
    (dom_lo dom_hi ijk_vec is_nodal : IntVec)
    (fbndry_lo fbndry_hi : Fin 3 → Bool) (p : Fin 3 × Fin 2)
    (h : isPECBoundary fbndry_lo fbndry_hi p = false
      ∨ get_cell_count_to_boundary dom_lo dom_hi ijk_vec is_nodal p.1 p.2 < 0)
    (s : PECMirrorState) :
    pecMirrorStep flip dom_lo dom_hi ijk_vec is_nodal fbndry_lo fbndry_hi
      s p = s := by
  unfold pecMirrorStep
  rcases h with h | h
  · simp [h]
  · split_ifs <;> first | rfl | omega

/-- The loop state after the whole pass when exactly one `(idim, iside)`
boundary is active with guard depth `ig = 1`: the mirror index is set, the
guard flag raised, and the sign flipped exactly when `flip` holds. -/
theorem pecMirrorRun_single (flip : Fin 3 → Bool)
    (dom_lo dom_hi ijk_vec is_nodal : IntVec)
    (fbndry_lo fbndry_hi : Fin 3 → Bool) (idim : Fin 3) (iside : Fin 2)
    (hpec : isPECBoundary fbndry_lo fbndry_hi (idim, iside) = true)
    (hig : get_cell_count_to_boundary dom_lo dom_hi ijk_vec is_nodal idim
        iside = 1)
    (hothers : ∀ p : Fin 3 × Fin 2, p ≠ (idim, iside) →
      isPECBoundary fbndry_lo fbndry_hi p = false
      ∨ get_cell_count_to_boundary dom_lo dom_hi ijk_vec is_nodal p.1 p.2 < 0) :
    pecPairs.foldl (pecMirrorStep flip dom_lo dom_hi ijk_vec is_nodal
        fbndry_lo fbndry_hi) ⟨ijk_vec, false, false, 1⟩
      = ⟨Function.update ijk_vec idim
            (pecMirrorIndex dom_lo dom_hi is_nodal idim iside 1),
          false, true, if flip idim then -1 else 1⟩ := by
  rw [foldl_single_mem _ pecPairs (idim, iside)
    (fun p _ hne t => pecMirrorStep_inactive flip dom_lo dom_hi ijk_vec
      is_nodal fbndry_lo fbndry_hi p (hothers p hne) t)
    pecPairs_nodup (mem_pecPairs _)]
  unfold pecMirrorStep
  simp [hpec, hig]

/-- The mirror of a depth-1 guard cell is a different cell (its index on
the boundary axis lies on the domain side of the boundary). -/
theorem pec_mirror_ne (dom_lo dom_hi ijk_vec is_nodal : IntVec)
    (idim : Fin 3) (iside : Fin 2)
    (hig : get_cell_count_to_boundary dom_lo dom_hi ijk_vec is_nodal idim
        iside = 1)
    (hnodal : is_nodal idim = 0 ∨ is_nodal idim = 1) :
    pecMirrorIndex dom_lo dom_hi is_nodal idim iside 1 ≠ ijk_vec idim := by
  unfold get_cell_count_to_boundary at hig
  unfold pecMirrorIndex
  by_cases h0 : iside = 0
  · simp only [h0, if_true] at hig ⊢
    rcases hnodal with h | h <;> omega
  · simp only [h0, if_false] at hig ⊢
    rcases hnodal with h | h <;> omega

/-- Value written by the mirror pass into a single-boundary depth-1 guard
cell. -/
theorem pecMirrorPass_guard_value (flip : Fin 3 → Bool)
    (dom_lo dom_hi ijk_vec is_nodal : IntVec) (n : ℕ) (F : Field3)
    (fbndry_lo fbndry_hi : Fin 3 → Bool) (idim : Fin 3) (iside : Fin 2)
    (hpec : isPECBoundary fbndry_lo fbndry_hi (idim, iside) = true)
    (hig : get_cell_count_to_boundary dom_lo dom_hi ijk_vec is_nodal idim
        iside = 1)
    (hothers : ∀ p : Fin 3 × Fin 2, p ≠ (idim, iside) →
      isPECBoundary fbndry_lo fbndry_hi p = false
      ∨ get_cell_count_to_boundary dom_lo dom_hi ijk_vec is_nodal p.1 p.2 < 0) :
    pecMirrorPass flip dom_lo dom_hi ijk_vec n F is_nodal fbndry_lo
        fbndry_hi (ijk_vec, n)
      = (if flip idim then (-1 : ℚ) else 1)
          * F (Function.update ijk_vec idim
              (pecMirrorIndex dom_lo dom_hi is_nodal idim iside 1), n) := by
  unfold pecMirrorPass
  simp only [pecMirrorRun_single flip dom_lo dom_hi ijk_vec is_nodal
    fbndry_lo fbndry_hi idim iside hpec hig hothers]
  simp [Function.update_same]

/-- Applying the mirror pass a second time at the same single-boundary
depth-1 guard cell changes nothing: the interior mirror cell was not
modified by the first pass. -/
theorem pecMirrorPass_guard_idem (flip : Fin 3 → Bool)
    (dom_lo dom_hi ijk_vec is_nodal : IntVec) (n : ℕ) (F : Field3)
    (fbndry_lo fbndry_hi : Fin 3 → Bool) (idim : Fin 3) (iside : Fin 2)
    (hpec : isPECBoundary fbndry_lo fbndry_hi (idim, iside) = true)
    (hig : get_cell_count_to_boundary dom_lo dom_hi ijk_vec is_nodal idim
        iside = 1)
    (hothers : ∀ p : Fin 3 × Fin 2, p ≠ (idim, iside) →
      isPECBoundary fbndry_lo fbndry_hi p = false
      ∨ get_cell_count_to_boundary dom_lo dom_hi ijk_vec is_nodal p.1 p.2 < 0)
    (hnodal : is_nodal idim = 0 ∨ is_nodal idim = 1) :
    pecMirrorPass flip dom_lo dom_hi ijk_vec n
        (pecMirrorPass flip dom_lo dom_hi ijk_vec n F is_nodal fbndry_lo
          fbndry_hi) is_nodal fbndry_lo fbndry_hi
      = pecMirrorPass flip dom_lo dom_hi ijk_vec n F is_nodal fbndry_lo
          fbndry_hi := by
  have hne : ((Function.update ijk_vec idim
      (pecMirrorIndex dom_lo dom_hi is_nodal idim iside 1), n) : IntVec × ℕ)
      ≠ (ijk_vec, n) := by
    intro heq
    have h1 : Function.update ijk_vec idim
        (pecMirrorIndex dom_lo dom_hi is_nodal idim iside 1) idim
        = ijk_vec idim := congrFun (congrArg Prod.fst heq) idim
    rw [Function.update_same] at h1
    exact pec_mirror_ne dom_lo dom_hi ijk_vec is_nodal idim iside hig
      hnodal h1
  unfold pecMirrorPass
  simp only [pecMirrorRun_single flip dom_lo dom_hi ijk_vec is_nodal
    fbndry_lo fbndry_hi idim iside hpec hig hothers]
  simp only [Bool.false_eq_true, if_false, if_true]
  rw [Function.update_noteq hne, Function.update_idem]

/-- Claim C4: PEC guard-cell mirror and idempotence.  For a guard cell at
depth `ig = 1` beyond a single PEC boundary (all other axis/side pairs
inactive — not PEC or strictly inside), after `SetEfieldOnPEC` /
`SetBfieldOnPEC` the cell's value equals sign times the value at the
computed interior mirror cell (`dom_lo + ig - (1 - is_nodal)` on the low
side, `dom_hi + 1 - ig` on the high side), with sign `-1` when the
component is tangential (E) / normal (B) to the boundary and `+1`
otherwise; and re-applying the same pass leaves the corrected guard cell
unchanged, since the interior mirror cell is not modified by the pass. -/
theorem pec_guard_mirror_idempotent (icomp : ℕ)
    (dom_lo dom_hi ijk_vec is_nodal : IntVec) (n : ℕ)
    (Efield Bfield : Field3) (fbndry_lo fbndry_hi : Fin 3 → Bool)
    (idim : Fin 3) (iside : Fin 2)
    (hpec : isPECBoundary fbndry_lo fbndry_hi (idim, iside) = true)
    (hig : get_cell_count_to_boundary dom_lo dom_hi ijk_vec is_nodal idim
        iside = 1)
    (hothers : ∀ p : Fin 3 × Fin 2, p ≠ (idim, iside) →
      isPECBoundary fbndry_lo fbndry_hi p = false
      ∨ get_cell_count_to_boundary dom_lo dom_hi ijk_vec is_nodal p.1 p.2 < 0)
    (hnodal : is_nodal idim = 0 ∨ is_nodal idim = 1) :
    SetEfieldOnPEC icomp dom_lo dom_hi ijk_vec n Efield is_nodal fbndry_lo
        fbndry_hi (ijk_vec, n)
      = (if icomp ≠ (idim : ℕ) then (-1 : ℚ) else 1)
          * Efield (Function.update ijk_vec idim
              (pecMirrorIndex dom_lo dom_hi is_nodal idim iside 1), n)
    ∧ SetEfieldOnPEC icomp dom_lo dom_hi ijk_vec n
        (SetEfieldOnPEC icomp dom_lo dom_hi ijk_vec n Efield is_nodal
          fbndry_lo fbndry_hi) is_nodal fbndry_lo fbndry_hi
      = SetEfieldOnPEC icomp dom_lo dom_hi ijk_vec n Efield is_nodal
          fbndry_lo fbndry_hi
    ∧ SetBfieldOnPEC icomp dom_lo dom_hi ijk_vec n Bfield is_nodal
        fbndry_lo fbndry_hi (ijk_vec, n)
      = (if icomp = (idim : ℕ) then (-1 : ℚ) else 1)
          * Bfield (Function.update ijk_vec idim
              (pecMirrorIndex dom_lo dom_hi is_nodal idim iside 1), n)
    ∧ SetBfieldOnPEC icomp dom_lo dom_hi ijk_vec n
        (SetBfieldOnPEC icomp dom_lo dom_hi ijk_vec n Bfield is_nodal
          fbndry_lo fbndry_hi) is_nodal fbndry_lo fbndry_hi
      = SetBfieldOnPEC icomp dom_lo dom_hi ijk_vec n Bfield is_nodal
          fbndry_lo fbndry_hi := by
  refine ⟨?_, ?_, ?_, ?_⟩
  · unfold SetEfieldOnPEC
    rw [pecMirrorPass_guard_value (Etang3D icomp) dom_lo dom_hi ijk_vec
      is_nodal n Efield fbndry_lo fbndry_hi idim iside hpec hig hothers]
    simp [Etang3D]
  · unfold SetEfieldOnPEC
    exact pecMirrorPass_guard_idem (Etang3D icomp) dom_lo dom_hi ijk_vec
      is_nodal n Efield fbndry_lo fbndry_hi idim iside hpec hig hothers
      hnodal
  · unfold SetBfieldOnPEC
    rw [pecMirrorPass_guard_value (Bnorm3D icomp) dom_lo dom_hi ijk_vec
      is_nodal n Bfield fbndry_lo fbndry_hi idim iside hpec hig hothers]
    simp [Bnorm3D]
  · unfold SetBfieldOnPEC
    exact pecMirrorPass_guard_idem (Bnorm3D icomp) dom_lo dom_hi ijk_vec
      is_nodal n Bfield fbndry_lo fbndry_hi idim iside hpec hig hothers
      hnodal

/-- Witness for C4: depth-1 guard cell `(-1, 5, 5)` beyond the low-`x` PEC
boundary of the nodal domain `[0,9]³`; `icomp = 1` is tangential for `E`
(sign `-1`) and not normal for `B` (sign `+1`). -/
theorem pec_guard_mirror_idempotent_witness :
    SetEfieldOnPEC 1 ![0, 0, 0] ![9, 9, 9] ![-1, 5, 5] 0 (fun _ => 3)
        ![1, 1, 1] ![true, false, false] ![false, false, false]
        (![-1, 5, 5], 0)
      = (if (1 : ℕ) ≠ ((0 : Fin 3) : ℕ) then (-1 : ℚ) else 1)
          * (fun _ => (3 : ℚ)) (Function.update ![-1, 5, 5] 0
              (pecMirrorIndex ![0, 0, 0] ![9, 9, 9] ![1, 1, 1] 0 0 1), 0)
    ∧ SetEfieldOnPEC 1 ![0, 0, 0] ![9, 9, 9] ![-1, 5, 5] 0
        (SetEfieldOnPEC 1 ![0, 0, 0] ![9, 9, 9] ![-1, 5, 5] 0 (fun _ => 3)
          ![1, 1, 1] ![true, false, false] ![false, false, false])
        ![1, 1, 1] ![true, false, false] ![false, false, false]
      = SetEfieldOnPEC 1 ![0, 0, 0] ![9, 9, 9] ![-1, 5, 5] 0 (fun _ => 3)
          ![1, 1, 1] ![true, false, false] ![false, false, false]
    ∧ SetBfieldOnPEC 1 ![0, 0, 0] ![9, 9, 9] ![-1, 5, 5] 0 (fun _ => 4)
        ![1, 1, 1] ![true, false, false] ![false, false, false]
        (![-1, 5, 5], 0)
      = (if (1 : ℕ) = ((0 : Fin 3) : ℕ) then (-1 : ℚ) else 1)
          * (fun _ => (4 : ℚ)) (Function.update ![-1, 5, 5] 0
              (pecMirrorIndex ![0, 0, 0] ![9, 9, 9] ![1, 1, 1] 0 0 1), 0)
    ∧ SetBfieldOnPEC 1 ![0, 0, 0] ![9, 9, 9] ![-1, 5, 5] 0
        (SetBfieldOnPEC 1 ![0, 0, 0] ![9, 9, 9] ![-1, 5, 5] 0 (fun _ => 4)
          ![1, 1, 1] ![true, false, false] ![false, false, false])
        ![1, 1, 1] ![true, false, false] ![false, false, false]
      = SetBfieldOnPEC 1 ![0, 0, 0] ![9, 9, 9] ![-1, 5, 5] 0 (fun _ => 4)
          ![1, 1, 1] ![true, false, false] ![false, false, false] :=
  pec_guard_mirror_idempotent 1 ![0, 0, 0] ![9, 9, 9] ![-1, 5, 5]
    ![1, 1, 1] 0 (fun _ => 3) (fun _ => 4) ![true, false, false]
    ![false, false, false] 0 0 (by decide) (by decide)
    (by decide) (by decide)

theorem rhoPECstep1_inactive (n : ℕ) (ijk_vec : IntVec)
    (mirrorfac : Fin 3 → Fin 2 → ℤ) (psign : Fin 3 → Fin 2 → ℚ)
    (is_pec : Fin 3 → Fin 2 → Bool) (fabbox : AmrexBox)
    (p : Fin 3 × Fin 2) (h : is_pec p.1 p.2 = false) (f : Field3) :
    rhoPECstep1 n ijk_vec mirrorfac psign is_pec fabbox f p = f := by
  simp [rhoPECstep1, h]

theorem rhoPECstep2_inactive (n : ℕ) (ijk_vec : IntVec)
    (mirrorfac : Fin 3 → Fin 2 → ℤ) (is_pec : Fin 3 → Fin 2 → Bool)
    (tangent_to_bndy : Fin 3 → Bool) (fabbox : AmrexBox)
    (p : Fin 3 × Fin 2) (h : is_pec p.1 p.2 = false) (f : Field3) :
    rhoPECstep2 n ijk_vec mirrorfac is_pec tangent_to_bndy fabbox f p = f := by
  simp [rhoPECstep2, h]

theorem neumannPECstep_inactive (n : ℕ) (ijk_vec : IntVec)
    (mirrorfac : Fin 3 → Fin 2 → ℤ) (is_pec : Fin 3 → Fin 2 → Bool)
    (fabbox : AmrexBox) (p : Fin 3 × Fin 2) (h : is_pec p.1 p.2 = false)
    (f : Field3) :
    neumannPECstep n ijk_vec mirrorfac is_pec fabbox f p = f := by
  simp [neumannPECstep, h]

/-- Claim C5: image-charge folding order for deposited sources.  For a
single active PEC axis/side, `SetRhoOrJfieldFromPEC` performs, in order:
step 1 zeroes a cell that is its own mirror (exactly on the boundary) and
otherwise adds `psign` times the guard cell's deposited value into the
cell; step 2 then overwrites the guard cell with minus (tangential) or
plus (otherwise) the cell's value, where the value read by step 2 is the
value already updated by step 1 — every interior-cell update of step 1
happens before any guard-cell overwrite of step 2. -/
theorem pec_image_charge_folding_order (n : ℕ) (ijk_vec : IntVec)
    (field : Field3) (mirrorfac : Fin 3 → Fin 2 → ℤ)
    (psign : Fin 3 → Fin 2 → ℚ) (is_pec : Fin 3 → Fin 2 → Bool)
    (tangent_to_bndy : Fin 3 → Bool) (fabbox : AmrexBox)
    (idim : Fin 3) (iside : Fin 2)
    (hpec : is_pec idim iside = true)
    (hothers : ∀ p : Fin 3 × Fin 2, p ≠ (idim, iside) →
      is_pec p.1 p.2 = false) :
    (ijk_vec = pecMirrorCell ijk_vec mirrorfac (idim, iside) →
      SetRhoOrJfieldFromPEC n ijk_vec field mirrorfac psign is_pec
        tangent_to_bndy fabbox (ijk_vec, n) = 0)
    ∧ (ijk_vec ≠ pecMirrorCell ijk_vec mirrorfac (idim, iside) →
       fabbox.containsIv (pecMirrorCell ijk_vec mirrorfac (idim, iside))
         = true →
      SetRhoOrJfieldFromPEC n ijk_vec field mirrorfac psign is_pec
          tangent_to_bndy fabbox (ijk_vec, n)
        = field (ijk_vec, n) + psign idim iside
            * field (pecMirrorCell ijk_vec mirrorfac (idim, iside), n)
      ∧ SetRhoOrJfieldFromPEC n ijk_vec field mirrorfac psign is_pec
          tangent_to_bndy fabbox
          (pecMirrorCell ijk_vec mirrorfac (idim, iside), n)
        = (if tangent_to_bndy idim then (-1 : ℚ) else 1)
            * (field (ijk_vec, n) + psign idim iside
                * field (pecMirrorCell ijk_vec mirrorfac (idim, iside), n))) := by
  unfold SetRhoOrJfieldFromPEC
  rw [foldl_single_mem _ pecPairs (idim, iside)
      (fun p _ hne t => rhoPECstep1_inactive n ijk_vec mirrorfac psign
        is_pec fabbox p (hothers p hne) t)
      pecPairs_nodup (mem_pecPairs _),
    foldl_single_mem _ pecPairs (idim, iside)
      (fun p _ hne t => rhoPECstep2_inactive n ijk_vec mirrorfac is_pec
        tangent_to_bndy fabbox p (hothers p hne) t)
      pecPairs_nodup (mem_pecPairs _)]
  constructor
  · intro heq
    unfold rhoPECstep1 rhoPECstep2
    simp only [hpec, if_true]
    rw [if_neg (fun h => h.1 heq), if_pos heq, Function.update_same]
  · intro hne hin
    unfold rhoPECstep1 rhoPECstep2
    simp only [hpec, if_true]
    rw [if_pos ⟨hne, hin⟩, if_neg hne, if_pos hin]
    have hpair : ((ijk_vec, n) : IntVec × ℕ)
        ≠ (pecMirrorCell ijk_vec mirrorfac (idim, iside), n) :=
      fun hp => hne (congrArg Prod.fst hp)
    constructor
    · rw [Function.update_noteq hpair, Function.update_same]
    · rw [Function.update_same, Function.update_same]
      split_ifs <;> ring

/-- Witness for C5: single low-`x` PEC boundary, interior cell `(1,5,5)`
with mirror guard cell `(-1,5,5)` inside the fab box. -/
theorem pec_image_charge_folding_order_witness :
    (![1, 5, 5] = pecMirrorCell ![1, 5, 5] (fun _ _ => 0) (0, 0) →
      SetRhoOrJfieldFromPEC 0 ![1, 5, 5] (fun _ => 3) (fun _ _ => 0)
        (fun _ _ => 1) (fun d s => decide (d = 0) && decide (s = 0))
        ![true, false, false] ⟨![-2, -2, -2], ![12, 12, 12]⟩
        (![1, 5, 5], 0) = 0)
    ∧ (![1, 5, 5] ≠ pecMirrorCell ![1, 5, 5] (fun _ _ => 0) (0, 0) →
       AmrexBox.containsIv ⟨![-2, -2, -2], ![12, 12, 12]⟩
         (pecMirrorCell ![1, 5, 5] (fun _ _ => 0) (0, 0)) = true →
      SetRhoOrJfieldFromPEC 0 ![1, 5, 5] (fun _ => 3) (fun _ _ => 0)
          (fun _ _ => 1) (fun d s => decide (d = 0) && decide (s = 0))
          ![true, false, false] ⟨![-2, -2, -2], ![12, 12, 12]⟩
          (![1, 5, 5], 0)
        = (fun _ => (3 : ℚ)) (![1, 5, 5], 0) + (fun _ _ => (1 : ℚ)) 0 0
            * (fun _ => (3 : ℚ))
              (pecMirrorCell ![1, 5, 5] (fun _ _ => 0) (0, 0), 0)
      ∧ SetRhoOrJfieldFromPEC 0 ![1, 5, 5] (fun _ => 3) (fun _ _ => 0)
          (fun _ _ => 1) (fun d s => decide (d = 0) && decide (s = 0))
          ![true, false, false] ⟨![-2, -2, -2], ![12, 12, 12]⟩
          (pecMirrorCell ![1, 5, 5] (fun _ _ => 0) (0, 0), 0)
        = (if ![true, false, false] (0 : Fin 3) then (-1 : ℚ) else 1)
            * ((fun _ => (3 : ℚ)) (![1, 5, 5], 0) + (fun _ _ => (1 : ℚ)) 0 0
                * (fun _ => (3 : ℚ))
                  (pecMirrorCell ![1, 5, 5] (fun _ _ => 0) (0, 0), 0))) :=
  pec_image_charge_folding_order 0 ![1, 5, 5] (fun _ => 3) (fun _ _ => 0)
    (fun _ _ => 1) (fun d s => decide (d = 0) && decide (s = 0))
    ![true, false, false] ⟨![-2, -2, -2], ![12, 12, 12]⟩ 0 0
    (by decide) (by decide)

/-- Claim C8: Neumann (zero-derivative) variant for the scalar
pressure-like field.  For a single active PEC axis/side,
`SetNeumannOnPEC` applies the mirror rule with no sign flip: a cell equal
to its own mirror index (exactly on the boundary) is set to the value of
the adjacent cell one step inward, and otherwise the mirror guard cell is
overwritten with the processed cell's value — in both cases only when the
needed source/target index lies within the fab box. -/
theorem pec_neumann_variant (n : ℕ) (ijk_vec : IntVec) (field : Field3)
    (mirrorfac : Fin 3 → Fin 2 → ℤ) (is_pec : Fin 3 → Fin 2 → Bool)
    (fabbox : AmrexBox) (idim : Fin 3) (iside : Fin 2)
    (hpec : is_pec idim iside = true)
    (hothers : ∀ p : Fin 3 × Fin 2, p ≠ (idim, iside) →
      is_pec p.1 p.2 = false) :
    (ijk_vec = pecMirrorCell ijk_vec mirrorfac (idim, iside) →
     fabbox.containsIv (Function.update
        (pecMirrorCell ijk_vec mirrorfac (idim, iside)) idim
        (pecMirrorCell ijk_vec mirrorfac (idim, iside) idim
          + (if iside = 0 then 1 else -1))) = true →
      SetNeumannOnPEC n ijk_vec field mirrorfac is_pec fabbox (ijk_vec, n)
        = field (Function.update
            (pecMirrorCell ijk_vec mirrorfac (idim, iside)) idim
            (pecMirrorCell ijk_vec mirrorfac (idim, iside) idim
              + (if iside = 0 then 1 else -1)), n))
    ∧ (ijk_vec ≠ pecMirrorCell ijk_vec mirrorfac (idim, iside) →
       fabbox.containsIv (pecMirrorCell ijk_vec mirrorfac (idim, iside))
         = true →
      SetNeumannOnPEC n ijk_vec field mirrorfac is_pec fabbox
          (pecMirrorCell ijk_vec mirrorfac (idim, iside), n)
        = field (ijk_vec, n)) := by
  unfold SetNeumannOnPEC
  rw [foldl_single_mem _ pecPairs (idim, iside)
    (fun p _ hne t => neumannPECstep_inactive n ijk_vec mirrorfac is_pec
      fabbox p (hothers p hne) t)
    pecPairs_nodup (mem_pecPairs _)]
  constructor
  · intro heq hin
    unfold neumannPECstep
    simp only [hpec, if_true]
    rw [if_pos heq, if_pos hin, Function.update_same]
  · intro hne hin
    unfold neumannPECstep
    simp only [hpec, if_true]
    rw [if_neg hne, if_pos hin, Function.update_same]

/-- Witness for C8: nodal on-boundary cell `(5,5,5)` equal to its own
mirror (`mirrorfac = 10` on the low-`x` side); it copies the value of the
adjacent interior cell `(6,5,5)`. -/
theorem pec_neumann_variant_witness :
    (![5, 5, 5] = pecMirrorCell ![5, 5, 5] (fun _ _ => 10) (0, 0) →
     AmrexBox.containsIv ⟨![0, 0, 0], ![10, 10, 10]⟩
       (Function.update (pecMirrorCell ![5, 5, 5] (fun _ _ => 10) (0, 0)) 0
         (pecMirrorCell ![5, 5, 5] (fun _ _ => 10) (0, 0) 0
           + (if (0 : Fin 2) = 0 then 1 else -1))) = true →
      SetNeumannOnPEC 0 ![5, 5, 5] (fun _ => 3) (fun _ _ => 10)
          (fun d s => decide (d = 0) && decide (s = 0))
          ⟨![0, 0, 0], ![10, 10, 10]⟩ (![5, 5, 5], 0)
        = (fun _ => (3 : ℚ)) (Function.update
            (pecMirrorCell ![5, 5, 5] (fun _ _ => 10) (0, 0)) 0
            (pecMirrorCell ![5, 5, 5] (fun _ _ => 10) (0, 0) 0
              + (if (0 : Fin 2) = 0 then 1 else -1)), 0))
    ∧ (![5, 5, 5] ≠ pecMirrorCell ![5, 5, 5] (fun _ _ => 10) (0, 0) →
       AmrexBox.containsIv ⟨![0, 0, 0], ![10, 10, 10]⟩
         (pecMirrorCell ![5, 5, 5] (fun _ _ => 10) (0, 0)) = true →
      SetNeumannOnPEC 0 ![5, 5, 5] (fun _ => 3) (fun _ _ => 10)
          (fun d s => decide (d = 0) && decide (s = 0))
          ⟨![0, 0, 0], ![10, 10, 10]⟩
          (pecMirrorCell ![5, 5, 5] (fun _ _ => 10) (0, 0), 0)
        = (fun _ => (3 : ℚ)) (![5, 5, 5], 0)) :=
  pec_neumann_variant 0 ![5, 5, 5] (fun _ => 3) (fun _ _ => 10)
    (fun d s => decide (d = 0) && decide (s = 0))
    ⟨![0, 0, 0], ![10, 10, 10]⟩ 0 0 (by decide) (by decide)

/-- Claim C6: soft no-op on missing mirror.  For every cell processed by
`SetRhoOrJfieldFromPEC` or `SetNeumannOnPEC`, when the computed mirror
index of an active axis/side falls outside the fab box (and the cell is
not its own mirror), the mirror update of that axis/side is the identity
on the field, and when this holds for every active axis/side the kernels
return the field unchanged — no error is raised. -/
theorem pec_soft_noop_missing_mirror (n : ℕ) (ijk_vec : IntVec)
    (field : Field3) (mirrorfac : Fin 3 → Fin 2 → ℤ)
    (psign : Fin 3 → Fin 2 → ℚ) (is_pec : Fin 3 → Fin 2 → Bool)
    (tangent_to_bndy : Fin 3 → Bool) (fabbox : AmrexBox)
    (hskip : ∀ p : Fin 3 × Fin 2, is_pec p.1 p.2 = true →
      ijk_vec ≠ pecMirrorCell ijk_vec mirrorfac p
      ∧ fabbox.containsIv (pecMirrorCell ijk_vec mirrorfac p) = false) :
    (∀ (f : Field3) (p : Fin 3 × Fin 2),
      rhoPECstep1 n ijk_vec mirrorfac psign is_pec fabbox f p = f
      ∧ rhoPECstep2 n ijk_vec mirrorfac is_pec tangent_to_bndy fabbox f p = f
      ∧ neumannPECstep n ijk_vec mirrorfac is_pec fabbox f p = f)
    ∧ SetRhoOrJfieldFromPEC n ijk_vec field mirrorfac psign is_pec
        tangent_to_bndy fabbox = field
    ∧ SetNeumannOnPEC n ijk_vec field mirrorfac is_pec fabbox = field := by
  have hsteps : ∀ (f : Field3) (p : Fin 3 × Fin 2),
      rhoPECstep1 n ijk_vec mirrorfac psign is_pec fabbox f p = f
      ∧ rhoPECstep2 n ijk_vec mirrorfac is_pec tangent_to_bndy fabbox f p = f
      ∧ neumannPECstep n ijk_vec mirrorfac is_pec fabbox f p = f := by
    intro f p
    by_cases hp : is_pec p.1 p.2 = true
    · obtain ⟨hne, hnc⟩ := hskip p hp
      refine ⟨?_, ?_, ?_⟩
      · unfold rhoPECstep1
        simp only [hp, if_true]
        rw [if_neg hne, if_neg (by simp [hnc])]
      · unfold rhoPECstep2
        simp only [hp, if_true]
        rw [if_neg (fun h => absurd h.2 (by simp [hnc]))]
      · unfold neumannPECstep
        simp only [hp, if_true]
        rw [if_neg hne, if_neg (by simp [hnc])]
    · have hp' : is_pec p.1 p.2 = false := by
        rcases Bool.eq_false_or_eq_true (is_pec p.1 p.2) with h | h
        · exact absurd h hp
        · exact h
      exact ⟨rhoPECstep1_inactive n ijk_vec mirrorfac psign is_pec fabbox
          p hp' f,
        rhoPECstep2_inactive n ijk_vec mirrorfac is_pec tangent_to_bndy
          fabbox p hp' f,
        neumannPECstep_inactive n ijk_vec mirrorfac is_pec fabbox p hp' f⟩
  refine ⟨hsteps, ?_, ?_⟩
  · unfold SetRhoOrJfieldFromPEC
    rw [foldl_id_of_identity _ pecPairs field
        (fun p _ t => (hsteps t p).1),
      foldl_id_of_identity _ pecPairs field
        (fun p _ t => (hsteps t p).2.1)]
  · unfold SetNeumannOnPEC
    exact foldl_id_of_identity _ pecPairs field
      (fun p _ t => (hsteps t p).2.2)

/-- Witness for C6: low-`x` PEC boundary with `mirrorfac = 100`; the
mirror of cell `(5,5,5)` is `(95,5,5)`, outside the fab box `[0,10]³`, so
both kernels leave the field unchanged. -/
theorem pec_soft_noop_missing_mirror_witness :
    (∀ (f : Field3) (p : Fin 3 × Fin 2),
      rhoPECstep1 0 ![5, 5, 5] (fun _ _ => 100) (fun _ _ => 1)
        (fun d s => decide (d = 0) && decide (s = 0))
        ⟨![0, 0, 0], ![10, 10, 10]⟩ f p = f
      ∧ rhoPECstep2 0 ![5, 5, 5] (fun _ _ => 100)
        (fun d s => decide (d = 0) && decide (s = 0)) ![true, false, false]
        ⟨![0, 0, 0], ![10, 10, 10]⟩ f p = f
      ∧ neumannPECstep 0 ![5, 5, 5] (fun _ _ => 100)
        (fun d s => decide (d = 0) && decide (s = 0))
        ⟨![0, 0, 0], ![10, 10, 10]⟩ f p = f)
    ∧ SetRhoOrJfieldFromPEC 0 ![5, 5, 5] (fun _ => 3) (fun _ _ => 100)
        (fun _ _ => 1) (fun d s => decide (d = 0) && decide (s = 0))
        ![true, false, false] ⟨![0, 0, 0], ![10, 10, 10]⟩ = (fun _ => 3)
    ∧ SetNeumannOnPEC 0 ![5, 5, 5] (fun _ => 3) (fun _ _ => 100)
        (fun d s => decide (d = 0) && decide (s = 0))
        ⟨![0, 0, 0], ![10, 10, 10]⟩ = (fun _ => 3) :=
  pec_soft_noop_missing_mirror 0 ![5, 5, 5] (fun _ => 3) (fun _ _ => 100)
    (fun _ _ => 1) (fun d s => decide (d = 0) && decide (s = 0))
    ![true, false, false] ⟨![0, 0, 0], ![10, 10, 10]⟩ (by decide)

/-- Claim C10 (code bug): `fillWithConsecutiveReal` never writes into `v`:
its kernel body computes `begin + i*increment` into a discarded temporary,
so the vector is returned unchanged for every input, contradicting the
evident intent (the real-valued analogue of
`fillWithConsecutiveIntegers`); at `v = [0,0]`, `begin = 5`,
`increment = 2`, `N = 2` the code yields `[0,0]` where the intent yields
`[5,7]`. -/
theorem fillWithConsecutiveReal_noop_bug :
    (∀ (v : List ℚ) (b inc : ℚ) (N : ℕ),
      fillWithConsecutiveReal v b inc N = v)
    ∧ fillWithConsecutiveReal [0, 0] 5 2 2 = [0, 0]
    ∧ fillWithConsecutiveRealIntent [0, 0] 5 2 2 = [5, 7]
    ∧ fillWithConsecutiveReal [0, 0] 5 2 2
        ≠ fillWithConsecutiveRealIntent [0, 0] 5 2 2 := by
  have hnoop : ∀ (v : List ℚ) (b inc : ℚ) (N : ℕ),
      fillWithConsecutiveReal v b inc N = v := by
    intro v b inc N
    unfold fillWithConsecutiveReal
    exact foldl_id_of_identity _ (List.range N) v (fun x _ t => rfl)
  refine ⟨hnoop, hnoop _ _ _ _,
    by norm_num [fillWithConsecutiveRealIntent, List.range_succ], ?_⟩
  rw [hnoop]
  norm_num [fillWithConsecutiveRealIntent, List.range_succ]

end WarpXSpec
